import Mathlib

/-!
Verification development for the `process_sr.py` mail-ingestion script.

The Python source is shallowly embedded: strings become `List Char`
(ASCII semantics for character classes; the script only ever deals with
ASCII-relevant subjects and file names), filesystem paths become lists of
path components, the filesystem itself becomes an explicit record of
existing file and directory paths, and the Outlook mailbox becomes a list
of abstract mail items.  Every stateful Python function is embedded as a
pure function threading this state.
-/

set_option autoImplicit false

namespace ProcessSR

/-- A string of the Python program, as a list of characters. -/
abbrev Name := List Char

/-- A filesystem path, as a list of path components. -/
abbrev FPath := List Name

/-! ## Character classes

`str.strip`, `re` class `\s`: whitespace (ASCII fragment of Python's
Unicode classes). `\w` / `\b`: word characters `[A-Za-z0-9_]`. -/

/-- Python whitespace (ASCII fragment): the characters stripped by
`str.strip()` and matched by the regex class backslash-s. -/
def isSpacePy (c : Char) : Bool :=
  c = ' ' || c = '\t' || c = '\n' || c = '\r' || c = '\x0b' || c = '\x0c'

/-- Regex word character (ASCII fragment): letters, digits, underscore. -/
def isWordChar (c : Char) : Bool :=
  c.isAlpha || c.isDigit || c = '_'

/-! ## Name sanitisation (`safe_folder_name`, `safe_file_name`) -/

/-- `INVALID_FS_CHARS = r'<>:"/\|?*'` from the source. -/
def INVALID_FS_CHARS : List Char := ['<', '>', ':', '"', '/', '\\', '|', '?', '*']

/-- `MAX_NAME = 150` from the source. -/
def MAX_NAME : Nat := 150

/-- `str.translate(TRANS)`: each illegal filesystem character becomes a
single space. -/
def pyTranslate (s : Name) : Name :=
  s.map (fun c => if c ∈ INVALID_FS_CHARS then ' ' else c)

/-- `str.strip()`: drop leading and trailing whitespace. -/
def pyStrip (s : Name) : Name :=
  ((s.dropWhile isSpacePy).reverse.dropWhile isSpacePy).reverse

/-- `str.rstrip(" .")`: drop trailing spaces and dots. -/
def rstripDotSpace (s : Name) : Name :=
  (s.reverse.dropWhile (fun c => c = ' ' || c = '.')).reverse

/-- `re.sub(r"\s+", " ", s)`: replace every maximal whitespace run by a
single space.  The last character of each run becomes the space. -/
def collapseWs : Name → Name
  | [] => []
  | [c] => if isSpacePy c then [' '] else [c]
  | c :: d :: t =>
    if isSpacePy c && isSpacePy d then collapseWs (d :: t)
    else (if isSpacePy c then ' ' else c) :: collapseWs (d :: t)

/-- Fallback folder name from the source. -/
def messageName : Name := "message".toList

/-- Fallback file name from the source. -/
def attachmentName : Name := "attachment".toList

/--
`safe_folder_name` (source lines 62-66):
translate illegal characters to spaces, strip, collapse whitespace runs,
truncate to `MAX_NAME`, strip trailing spaces and dots, fall back to
`"message"` when empty.
-/
def safe_folder_name (text : Name) : Name :=
  let clean := collapseWs (pyStrip (pyTranslate text))
  let r := rstripDotSpace (clean.take MAX_NAME)
  if r = [] then messageName else r

/-- Split a raw path string on the Windows path separators. -/
def splitSegs : Name → List Name
  | [] => [[]]
  | c :: t =>
    if c = '/' || c = '\\' then [] :: splitSegs t
    else
      match splitSegs t with
      | [] => [[c]]
      | h :: r => (c :: h) :: r

/--
`pathlib.Path(s).name` on Windows (model): drop a leading one-letter drive
`X:`, split on `/` and `\`, discard empty and `.` segments, and return the
last remaining segment (or the empty string).  UNC server roots are not
modelled; the script only ever passes plain attachment and archive-member
names here.
-/
def pyPathName (s : Name) : Name :=
  let s1 := match s with
    | _ :: ':' :: rest => rest
    | _ => s
  let segs := (splitSegs s1).filter (fun seg => seg ≠ [] && seg ≠ ['.'])
  segs.getLastD []

/--
`safe_file_name` (source lines 68-71):
basename, translate, strip, rstrip of spaces/dots, collapse whitespace
runs, fall back to `"attachment"` when empty, truncate to `MAX_NAME`.
-/
def safe_file_name (name : Name) : Name :=
  let n0 := if name = [] then attachmentName else name
  let base := rstripDotSpace (pyStrip (pyTranslate (pyPathName n0)))
  let base2 := collapseWs base
  (if base2 = [] then attachmentName else base2).take MAX_NAME

/-! ## The filesystem model and `unique_path` -/

/-- The filesystem: the existing file paths and the existing directory
paths. -/
structure FS where
  files : List FPath
  dirs : List FPath
deriving DecidableEq, Repr

/-- `Path.exists()`: the path names an existing file or directory. -/
def FS.Has (fs : FS) (p : FPath) : Prop := p ∈ fs.files ∨ p ∈ fs.dirs

instance (fs : FS) (p : FPath) : Decidable (fs.Has p) :=
  inferInstanceAs (Decidable (_ ∨ _))

/-- Total number of filesystem entries; used to bound the probe loop of
`unique_path`. -/
def FS.size (fs : FS) : Nat := fs.files.length + fs.dirs.length

/-- Creating a file. -/
def FS.addFile (fs : FS) (p : FPath) : FS := { fs with files := p :: fs.files }

/-- `Path.unlink`: removing a file. -/
def FS.rmFile (fs : FS) (p : FPath) : FS := { fs with files := fs.files.erase p }

/-- `Path.mkdir(parents=True, exist_ok=True)` for a directory directly
under an existing base. -/
def FS.addDir (fs : FS) (p : FPath) : FS :=
  if p ∈ fs.dirs then fs else { fs with dirs := p :: fs.dirs }

/-- Decimal digit characters of `n`, most significant first (fuelled,
structurally recursive form of the usual base-10 expansion). -/
def natDigitsAux : Nat → Nat → Name
  | _, 0 => []
  | n, fuel + 1 =>
    if n < 10 then [Nat.digitChar n]
    else natDigitsAux (n / 10) fuel ++ [Nat.digitChar (n % 10)]

/-- Decimal digit characters of `n`, as produced by Python string
formatting of a nonnegative integer. -/
def natDigits (n : Nat) : Name := natDigitsAux n (n + 1)

/-- `pathlib` stem/suffix split of a single path component: the suffix
starts at the last dot, provided that dot is neither the first nor the
last character. -/
def pySplitExt (n : Name) : Name × Name :=
  match (n.reverse.findIdx? (fun c => c = '.')).map (fun j => n.length - 1 - j) with
  | none => (n, [])
  | some i => if 0 < i ∧ i < n.length - 1 then (n.take i, n.drop i) else (n, [])

/-- `p.with_name(f"{stem}_{i}{suffix}")`: the `i`-th collision candidate
probed by `unique_path`. -/
def candPath (dir : FPath) (stem suffix : Name) (i : Nat) : FPath :=
  dir ++ [stem ++ '_' :: (natDigits i ++ suffix)]

/-- The probe loop of `unique_path`: return the first candidate from `i`
upward that does not exist, checking at most `fuel + 1` candidates. -/
def probeFrom (fs : FS) (mk : Nat → FPath) : Nat → Nat → FPath
  | i, 0 => mk i
  | i, fuel + 1 => if fs.Has (mk i) then probeFrom fs mk (i + 1) fuel else mk i

/--
`unique_path` (source lines 76-85): if `p` does not exist return it,
otherwise probe `stem_2.ext`, `stem_3.ext`, ... in increasing order and
return the first candidate that does not exist.  The probe loop of the
source is unbounded; on a finite filesystem it always terminates within
`fs.size + 1` probes, which is the fuel given here.
-/
def unique_path (fs : FS) (p : FPath) : FPath :=
  if fs.Has p then
    let se := pySplitExt (p.getLastD [])
    probeFrom fs (candPath p.dropLast se.1 se.2) 2 (fs.size + 1)
  else p

/-! ## Subject classification (the two regexes, source lines 52-55) -/

/-- Count of leading decimal digits, and the remainder of the string. -/
def digitsRun : Name → Nat × Name
  | [] => (0, [])
  | c :: t =>
    if c.isDigit then
      let r := digitsRun t
      (r.1 + 1, r.2)
    else (0, c :: t)

/-- Does a match of `SR\d{8,}\b` (case-insensitive) start exactly here?
The trailing word boundary holds iff the character after the maximal
digit run is absent or not a word character. -/
def srAt : Name → Bool
  | c1 :: c2 :: rest =>
    (c1 = 'S' || c1 = 's') && (c2 = 'R' || c2 = 'r') &&
      (let r := digitsRun rest
       decide (8 ≤ r.1) &&
         match r.2 with
         | [] => true
         | d :: _ => !isWordChar d)
  | _ => false

/-- Scan for `\bSR\d{8,}\b`; the flag records whether the current
position is preceded by no word character (i.e. a word boundary sits
before any word character found here). -/
def srSearchGo : Bool → Name → Bool
  | _, [] => false
  | bdry, c :: t => (bdry && srAt (c :: t)) || srSearchGo (!isWordChar c) t

/-- `SR_SUBJECT_PATTERN.search`: the subject contains `\bSR\d{8,}\b`,
case-insensitively (source line 53). -/
def SR_pattern_search (s : Name) : Bool := srSearchGo true s

/-- After the closing bracket of the reply count: optional whitespace,
then the colon. -/
def reColon : Name → Bool
  | c :: _ => c = ':'
  | [] => false

/-- After the digits of the reply count: the closing bracket, optional
whitespace, then the colon. -/
def reBracketRest : Name → Bool
  | c :: t => c = ']' && reColon (t.dropWhile isSpacePy)
  | [] => false

/-- After `RE` and optional whitespace: either the colon directly, or a
bracketed reply count `[n]`, optional whitespace and the colon. -/
def reTail : Name → Bool
  | c :: t =>
    if c = ':' then true
    else if c = '[' then
      decide (1 ≤ (digitsRun t).1) && reBracketRest (digitsRun t).2
    else false
  | [] => false

/-- `RE_PREFIX.search` (source line 55): the subject starts with
`\s*RE\s*(\[\d+\])?\s*:`, case-insensitively.  The regex is anchored by
`^`, so searching equals matching at the start; the optional bracket
group commits whenever a `[` follows, since on backtracking the `:`
can never match that `[`. -/
def RE_pattern_search (s : Name) : Bool :=
  match s.dropWhile isSpacePy with
  | c1 :: c2 :: rest =>
    (c1 = 'R' || c1 = 'r') && (c2 = 'E' || c2 = 'e') &&
      reTail (rest.dropWhile isSpacePy)
  | _ => false

/-- The subject classification of `process_folder` (source lines
177-182): the subject must contain the SR pattern and must not match the
reply marker. -/
def accepts (subject : Name) : Bool :=
  SR_pattern_search subject && !RE_pattern_search subject

/-! ## Declarative forms of the two patterns

These state, by explicit string decomposition, what the regexes mean;
the equivalence with the scanners above is proved later and is what the
classification claim is settled against. -/

/-- Every character of the list is whitespace. -/
def WsRun (l : Name) : Prop := ∀ c ∈ l, isSpacePy c = true

/-- Every character of the list is a decimal digit. -/
def DigitRun (l : Name) : Prop := ∀ c ∈ l, c.isDigit = true

instance (l : Name) : Decidable (WsRun l) :=
  inferInstanceAs (Decidable (∀ c ∈ l, isSpacePy c = true))

instance (l : Name) : Decidable (DigitRun l) :=
  inferInstanceAs (Decidable (∀ c ∈ l, c.isDigit = true))

/-- The subject contains, as a whole word, a case-insensitive token `SR`
followed by at least eight digits: declarative reading of
`\bSR\d{8,}\b`. -/
def SRTokenSpec (s : Name) : Prop :=
  ∃ pre c1 c2 ds post,
    s = pre ++ c1 :: c2 :: (ds ++ post) ∧
    (c1 = 'S' ∨ c1 = 's') ∧ (c2 = 'R' ∨ c2 = 'r') ∧
    8 ≤ ds.length ∧ DigitRun ds ∧
    (∀ c, pre.getLast? = some c → isWordChar c = false) ∧
    (∀ c, post.head? = some c → isWordChar c = false)

/-- The subject begins, after optional leading whitespace, with a
case-insensitive `RE`, optional whitespace, an optional bracketed reply
count, optional whitespace, and a colon: declarative reading of
`^\s*RE\s*(\[\d+\])?\s*:`. -/
def ReplyMarkSpec (s : Name) : Prop :=
  ∃ w1 c1 c2 w2 br w3 t,
    s = w1 ++ c1 :: c2 :: (w2 ++ br ++ w3 ++ ':' :: t) ∧
    WsRun w1 ∧ WsRun w2 ∧ WsRun w3 ∧
    (c1 = 'R' ∨ c1 = 'r') ∧ (c2 = 'E' ∨ c2 = 'e') ∧
    (br = [] ∨ ∃ ds, br = '[' :: ds ++ [']'] ∧ ds ≠ [] ∧ DigitRun ds)

/-- After the digits of the claim's `RE[n]:` marker: the closing bracket
immediately followed by the colon. -/
def claimBracketRest : Name → Bool
  | c1 :: c2 :: _ => c1 = ']' && c2 = ':'
  | _ => false

/-- After the claim's `RE`: either the colon directly, or a bracketed
reply count immediately followed by the colon (no whitespace inside the
marker). -/
def claimTail : Name → Bool
  | c :: t =>
    if c = ':' then true
    else if c = '[' then
      decide (1 ≤ (digitsRun t).1) && claimBracketRest (digitsRun t).2
    else false
  | [] => false

/-- The reply marker exactly as the classification claim words it: after
optional leading whitespace the subject starts with a case-insensitive
literal `RE:` or `RE[n]:`, with no whitespace inside the marker. -/
def claimReplyMark (s : Name) : Bool :=
  match s.dropWhile isSpacePy with
  | c1 :: c2 :: rest =>
    (c1 = 'R' || c1 = 'r') && (c2 = 'E' || c2 = 'e') && claimTail rest
  | _ => false

/-- The classification rule exactly as the claim words it. -/
def claimAccepts (s : Name) : Bool :=
  SR_pattern_search s && !claimReplyMark s

/-! ## Secure archive extraction (source lines 87-103) -/

/-- One archive member: its stored name and whether it is a directory
entry. -/
structure Member where
  filename : Name
  isDir : Bool
deriving DecidableEq, Repr

/-- `Path.resolve()` on an already-absolute component list: normalise
away `.` and `..` components (symlinks are not part of the model). -/
def resolvePath (p : FPath) : FPath :=
  p.foldl (fun acc comp =>
    if comp = ['.'] then acc
    else if comp = ['.', '.'] then acc.dropLast
    else acc ++ [comp]) []

/-- Is `a` a prefix of `b`?  `dest_resolved in out_path_resolved.parents
or out_path_resolved == dest_resolved` is exactly this on component
lists. -/
def prefOf : FPath → FPath → Bool
  | [], _ => true
  | _ :: _, [] => false
  | a :: as, b :: bs => a == b && prefOf as bs

/--
`secure_extract_member` (source lines 87-103): skip directory entries,
drop the member's embedded directory path, sanitise the base name,
choose a collision-free output path, and write only when the resolved
output path stays inside the resolved destination.  Returns the written
path (if any) and the new filesystem.
-/
def secure_extract_member (fs : FS) (dest : FPath) (m : Member) :
    Option FPath × FS :=
  if m.isDir then (none, fs)
  else
    let fname := pyPathName m.filename
    if fname = [] then (none, fs)
    else
      let out := unique_path fs (dest ++ [safe_file_name fname])
      if prefOf (resolvePath dest) (resolvePath out) then
        (some out, fs.addFile out)
      else (none, fs)

/-- Filesystem events of a run, in order. -/
inductive Ev where
  | mkDir (p : FPath)
  | write (p : FPath)
  | delete (p : FPath)
deriving DecidableEq, Repr

/-- The `for member in zf.infolist()` loop of `save_attachments`:
extract every member in turn. -/
def extractAll (dest : FPath) (fs : FS) : List Member → FS × List Ev
  | [] => (fs, [])
  | m :: ms =>
    match secure_extract_member fs dest m with
    | (some out, fs1) =>
      let r := extractAll dest fs1 ms
      (r.1, Ev.write out :: r.2)
    | (none, _) => extractAll dest fs ms

/-! ## Attachments and the per-item pipeline (source lines 116-220) -/

/-- What `zipfile.ZipFile` finds in a saved archive: either a corrupt
archive (`BadZipFile`) or its member list. -/
inductive ZipData where
  | corrupt
  | members (ms : List Member)
deriving DecidableEq, Repr

/-- One Outlook attachment: its `FileName`, whether `SaveAsFile`
succeeds, and what the saved bytes contain when opened as an archive. -/
structure Att where
  fileName : Name
  saveOk : Bool
  zip : ZipData
deriving DecidableEq, Repr

/-- Does the sanitised saved name end in `.zip`, case-insensitively
(`clean_name.lower().endswith(".zip")`)? -/
def endsWithZip (n : Name) : Bool :=
  (n.map Char.toLower).reverse.take 4 = ['p', 'i', 'z', '.']

/-- Result of `save_attachments`: the filesystem, the events, and the
returned list of saved non-archive attachment paths. -/
structure AttRes where
  fs : FS
  evs : List Ev
  saved : List FPath
deriving DecidableEq, Repr

/-- `clean_name = safe_file_name(str(att.FileName) or "attachment")`
(source lines 129-130). -/
def cleanNameOf (a : Att) : Name :=
  safe_file_name (if a.fileName = [] then attachmentName else a.fileName)

/-- `save_path = unique_path(dest_folder / clean_name)` (source line
131). -/
def attPath (dest : FPath) (fs : FS) (a : Att) : FPath :=
  unique_path fs (dest ++ [cleanNameOf a])

/-- Processing of a single attachment inside `save_attachments` (source
lines 128-149): save under a collision-free sanitised name; if the name
ends in `.zip`, extract (unless corrupt) and then always delete the
archive file; otherwise record the saved path. -/
def processAtt (dest : FPath) (fs : FS) (a : Att) : FS × List Ev × List FPath :=
  let path := attPath dest fs a
  if a.saveOk then
    let fs1 := fs.addFile path
    if endsWithZip (cleanNameOf a) then
      match a.zip with
      | ZipData.corrupt =>
        (fs1.rmFile path, [Ev.write path, Ev.delete path], [])
      | ZipData.members ms =>
        let r := extractAll dest fs1 ms
        (r.1.rmFile path, Ev.write path :: r.2 ++ [Ev.delete path], [])
    else (fs1, [Ev.write path], [path])
  else (fs, [], [])

/-- `save_attachments` (source lines 122-150) over the attachment
list. -/
def save_attachments (dest : FPath) (fs : FS) : List Att → AttRes
  | [] => ⟨fs, [], []⟩
  | a :: rest =>
    let s := processAtt dest fs a
    let r := save_attachments dest s.1 rest
    ⟨r.fs, s.2.1 ++ r.evs, s.2.2 ++ r.saved⟩

/-- One candidate mail item of the inbox: its Outlook item class check,
whether reading `Subject`/`EntryID` succeeds, the two strings, whether
`SaveAs` of the message succeeds, and its attachments. -/
structure MailItem where
  isMail : Bool
  readOk : Bool
  subject : Name
  entryId : Name
  saveMsgOk : Bool
  atts : List Att
deriving DecidableEq, Repr

/-- Result of a run of `process_folder`. -/
structure RunRes where
  fs : FS
  seen : Finset Name
  evs : List Ev
  count : Nat
deriving DecidableEq

/-- An item passes every classification gate of `process_folder`: it is
a mail item, its fields are readable, its subject contains the SR
pattern and is not a reply. -/
def acceptedB (m : MailItem) : Bool :=
  m.isMail && m.readOk && accepts m.subject

/-- `.msg` extension appended by `save_msg`. -/
def msgExt : Name := ".msg".toList

/-- `dest = Path(BASE_DIR) / safe_folder_name(subject)` (source lines
188-189). -/
def itemDest (base : FPath) (m : MailItem) : FPath :=
  base ++ [safe_folder_name m.subject]

/-- `fname = safe_folder_name(subject) or "message"` and the `.msg`
extension (source lines 117-118). -/
def msgFileName (m : MailItem) : Name :=
  (if safe_folder_name m.subject = [] then messageName
   else safe_folder_name m.subject) ++ msgExt

/-- `msg_path = unique_path(dest_folder / f"{fname}.msg")` of `save_msg`
(source line 118), against the filesystem as it stands after
`ensure_dir`. -/
def itemMsgPath (base : FPath) (fs : FS) (m : MailItem) : FPath :=
  unique_path (fs.addDir (itemDest base m)) (itemDest base m ++ [msgFileName m])

/-- Processing of one candidate item by `process_folder` (source lines
167-215): classification gates, then destination directory, message
save (`save_msg`, lines 116-120), attachments, and marking the
identifier as seen. -/
def processItem (base : FPath) (fs : FS) (seen : Finset Name) (m : MailItem) :
    RunRes :=
  if !m.isMail then ⟨fs, seen, [], 0⟩
  else if !m.readOk then ⟨fs, seen, [], 0⟩
  else if !SR_pattern_search m.subject then ⟨fs, seen, [], 0⟩
  else if RE_pattern_search m.subject then ⟨fs, seen, [], 0⟩
  else if m.entryId ∈ seen then ⟨fs, seen, [], 0⟩
  else
    let dest := itemDest base m
    let fs1 := fs.addDir dest
    let msgPath := itemMsgPath base fs m
    let s := if m.saveMsgOk then (fs1.addFile msgPath, [Ev.write msgPath])
             else (fs1, ([] : List Ev))
    let r := save_attachments dest s.1 m.atts
    ⟨r.fs, insert m.entryId seen, (Ev.mkDir dest :: s.2) ++ r.evs, 1⟩

/-- The item loop of `process_folder` over the candidate list. -/
def processRun (base : FPath) (fs : FS) (seen : Finset Name) :
    List MailItem → RunRes
  | [] => ⟨fs, seen, [], 0⟩
  | m :: rest =>
    let r1 := processItem base fs seen m
    let r2 := processRun base r1.fs r1.seen rest
    ⟨r2.fs, r2.seen, r1.evs ++ r2.evs, r1.count + r2.count⟩

/-! ## Processed-set persistence (source lines 105-114) -/

/-- `save_log` (source lines 113-114): the persisted representation is
the list of identifiers sorted lexicographically by code point, which is
exactly Python's string order.  The JSON encoding of a list of strings
by `json.dumps` and its decoding by `json.loads` are a stdlib
round-trip and are modelled as the identity on that list. -/
def save_log (seen : Finset Name) : List Name :=
  seen.sort (· ≤ ·)

/-- `load_log` (source lines 105-111) on an existing, well-formed log
file: the set of the stored identifiers. -/
def load_log (stored : List Name) : Finset Name := stored.toFinset

/-! ## The run lock (source lines 18-44) -/

/-- `LOCK_MAX_AGE_SECS = 15 * 60`. -/
def LOCK_MAX_AGE_SECS : Int := 15 * 60

/-- How the guarded scope ends. -/
inductive RunOutcome where
  | exitedEarly
  | completed
  | raised
deriving DecidableEq, Repr

/-- Result of running the program under `single_instance_lock`: how it
ended, the final lock-marker state, and whether the processing body ran
at all. -/
structure LockRun where
  outcome : RunOutcome
  finalLock : Option Int
  bodyRan : Bool
deriving DecidableEq, Repr

/--
`single_instance_lock` (source lines 20-44) around the processing body:
a stale marker (age strictly above `LOCK_MAX_AGE_SECS`) is removed;
if a marker still exists, `os.open(..., O_CREAT | O_EXCL)` fails and
the program exits via `SystemExit(0)` without running the body;
otherwise the body runs (`bodyRaises` tells whether it raises) and the
`finally` block removes the marker on both exits.
-/
def single_instance_lock (now : Int) (lock0 : Option Int) (bodyRaises : Bool) :
    LockRun :=
  let lock1 := match lock0 with
    | some t => if now - t > LOCK_MAX_AGE_SECS then none else some t
    | none => none
  match lock1 with
  | some t => ⟨RunOutcome.exitedEarly, some t, false⟩
  | none =>
    ⟨if bodyRaises then RunOutcome.raised else RunOutcome.completed, none, true⟩

/-! ## Proof-layer definitions -/

/-- No two consecutive characters are both whitespace (executable
form). -/
def noDoubleWsB : Name → Bool
  | [] => true
  | [_] => true
  | a :: b :: t => !(isSpacePy a && isSpacePy b) && noDoubleWsB (b :: t)

/-- No two consecutive characters are both whitespace. -/
def NoDoubleWs (l : Name) : Prop := noDoubleWsB l = true

instance (l : Name) : Decidable (NoDoubleWs l) :=
  inferInstanceAs (Decidable (noDoubleWsB l = true))

/-- The boundary flag of the SR scanner, as a condition on the already
consumed prefix. -/
def preOk (bdry : Bool) (pre : Name) : Bool :=
  match pre.getLast? with
  | none => bdry
  | some c => !isWordChar c

/-- Apply one event to the filesystem. -/
def applyEv (fs : FS) : Ev → FS
  | Ev.mkDir p => fs.addDir p
  | Ev.write p => fs.addFile p
  | Ev.delete p => fs.rmFile p

/-- Replay a trace, checking that every write is to a fresh path. -/
def replayOk (fs : FS) : List Ev → Bool
  | [] => true
  | Ev.mkDir p :: t => replayOk (fs.addDir p) t
  | Ev.write p :: t => !(decide (fs.Has p)) && replayOk (fs.addFile p) t
  | Ev.delete p :: t => replayOk (fs.rmFile p) t

/-! ## Lemmas: decimal digits and `unique_path` -/

/-- Numeric value of a digit character (proof device inverting
`Nat.digitChar` on `0..9`). -/
def digitVal (c : Char) : Nat := c.toNat - 48

/-- Numeric value of a digit string. -/
def digitsVal (l : Name) : Nat := l.foldl (fun a c => 10 * a + digitVal c) 0

theorem digitVal_digitChar {d : Nat} (h : d < 10) :
    digitVal (Nat.digitChar d) = d := by
  interval_cases d <;> rfl

theorem foldl_digits_append (a : Nat) (xs : Name) (c : Char) :
    (xs ++ [c]).foldl (fun a c => 10 * a + digitVal c) a =
      10 * xs.foldl (fun a c => 10 * a + digitVal c) a + digitVal c := by
  simp [List.foldl_append]

theorem digitsVal_natDigitsAux : ∀ fuel n, n < fuel →
    digitsVal (natDigitsAux n fuel) = n := by
  intro fuel
  induction fuel with
  | zero => omega
  | succ fuel ih =>
    intro n hn
    by_cases h10 : n < 10
    · simp only [natDigitsAux, if_pos h10, digitsVal, List.foldl]
      simpa using digitVal_digitChar h10
    · have hdiv : n / 10 < fuel := by omega
      simp only [natDigitsAux, if_neg h10, digitsVal] at *
      rw [foldl_digits_append, ih _ hdiv,
        digitVal_digitChar (Nat.mod_lt _ (by omega))]
      omega

theorem digitsVal_natDigits (n : Nat) : digitsVal (natDigits n) = n :=
  digitsVal_natDigitsAux (n + 1) n (Nat.lt_succ_self n)

theorem natDigits_injective : Function.Injective natDigits := by
  intro m n h
  have := digitsVal_natDigits m
  rw [h, digitsVal_natDigits] at this
  omega

theorem candPath_injective (dir : FPath) (stem suffix : Name) :
    Function.Injective (candPath dir stem suffix) := by
  intro i j h
  unfold candPath at h
  have h1 := List.append_cancel_left h
  have h2 : stem ++ '_' :: (natDigits i ++ suffix) =
      stem ++ '_' :: (natDigits j ++ suffix) := by
    simpa using h1
  have h3 := List.append_cancel_left h2
  have h4 : natDigits i ++ suffix = natDigits j ++ suffix := by
    simpa using h3
  exact natDigits_injective (List.append_cancel_right h4)

theorem exists_free (fs : FS) (mk : Nat → FPath)
    (inj : Function.Injective mk) (i0 : Nat) :
    ∃ j, i0 ≤ j ∧ j ≤ i0 + fs.size ∧ ¬ fs.Has (mk j) := by
  by_contra hall
  push_neg at hall
  set L : List FPath := (List.range (fs.size + 1)).map (fun k => mk (i0 + k))
    with hL
  have hnd : L.Nodup := by
    refine List.Nodup.map ?_ (List.nodup_range _)
    intro a b hab
    have := inj hab
    omega
  have hsub : ∀ x ∈ L, x ∈ fs.files ++ fs.dirs := by
    intro x hx
    rw [hL, List.mem_map] at hx
    obtain ⟨k, hk, rfl⟩ := hx
    rw [List.mem_range] at hk
    have := hall (i0 + k) (by omega) (by omega)
    rcases this with h | h <;> simp [List.mem_append, h]
  have hcard : L.length ≤ (fs.files ++ fs.dirs).length := by
    calc L.length = L.toFinset.card := (List.toFinset_card_of_nodup hnd).symm
      _ ≤ (fs.files ++ fs.dirs).toFinset.card := by
          apply Finset.card_le_card
          intro x hx
          rw [List.mem_toFinset] at hx ⊢
          exact hsub x hx
      _ ≤ (fs.files ++ fs.dirs).length := List.toFinset_card_le _
  have : L.length = fs.size + 1 := by simp [hL]
  have : (fs.files ++ fs.dirs).length = fs.size := by simp [FS.size]
  omega

theorem probeFrom_spec (fs : FS) (mk : Nat → FPath) :
    ∀ fuel i, (∃ j, i ≤ j ∧ j ≤ i + fuel ∧ ¬ fs.Has (mk j)) →
      ∃ j, i ≤ j ∧ probeFrom fs mk i fuel = mk j ∧ ¬ fs.Has (mk j) ∧
        ∀ k, i ≤ k → k < j → fs.Has (mk k) := by
  intro fuel
  induction fuel with
  | zero =>
    intro i h
    obtain ⟨j, hij, hji, hfree⟩ := h
    have : j = i := by omega
    subst this
    exact ⟨j, le_refl _, rfl, hfree, fun k h1 h2 => absurd (lt_of_le_of_lt h1 h2) (lt_irrefl _)⟩
  | succ fuel ih =>
    intro i h
    by_cases hi : fs.Has (mk i)
    · obtain ⟨j, hij, hji, hfree⟩ := h
      have hne : j ≠ i := fun e => hfree (e ▸ hi)
      obtain ⟨j', h1, h2, h3, h4⟩ := ih (i + 1) ⟨j, by omega, by omega, hfree⟩
      refine ⟨j', by omega, ?_, h3, ?_⟩
      · simp [probeFrom, hi, h2]
      · intro k hk1 hk2
        rcases Nat.eq_or_lt_of_le hk1 with rfl | hk
        · exact hi
        · exact h4 k hk hk2
    · exact ⟨i, le_refl _, by simp [probeFrom, hi], hi,
        fun k h1 h2 => absurd (lt_of_le_of_lt h1 h2) (lt_irrefl _)⟩

/-- The full specification of `unique_path`: an existing `p` is mapped to
the first free numbered candidate, a non-existing `p` is returned
unchanged, and the result never names an existing filesystem entry. -/
theorem unique_path_spec (fs : FS) (p : FPath) :
    ¬ fs.Has (unique_path fs p) ∧
    (¬ fs.Has p → unique_path fs p = p) ∧
    (fs.Has p → ∃ i, 2 ≤ i ∧
      unique_path fs p =
        candPath p.dropLast (pySplitExt (p.getLastD [])).1
          (pySplitExt (p.getLastD [])).2 i ∧
      ¬ fs.Has (candPath p.dropLast (pySplitExt (p.getLastD [])).1
          (pySplitExt (p.getLastD [])).2 i) ∧
      ∀ j, 2 ≤ j → j < i →
        fs.Has (candPath p.dropLast (pySplitExt (p.getLastD [])).1
          (pySplitExt (p.getLastD [])).2 j)) := by
  by_cases hp : fs.Has p
  · have hex := exists_free fs
      (candPath p.dropLast (pySplitExt (p.getLastD [])).1 (pySplitExt (p.getLastD [])).2)
      (candPath_injective _ _ _) 2
    obtain ⟨j, hj2, hjs, hjfree⟩ := hex
    have hprobe := probeFrom_spec fs
      (candPath p.dropLast (pySplitExt (p.getLastD [])).1 (pySplitExt (p.getLastD [])).2)
      (fs.size + 1) 2 ⟨j, hj2, by omega, hjfree⟩
    obtain ⟨i, hi2, heq, hfreei, hleast⟩ := hprobe
    have hup : unique_path fs p =
        candPath p.dropLast (pySplitExt (p.getLastD [])).1
          (pySplitExt (p.getLastD [])).2 i := by
      unfold unique_path
      rw [if_pos hp]
      exact heq
    refine ⟨by rw [hup]; exact hfreei, fun h => absurd hp h,
      fun _ => ⟨i, hi2, hup, hfreei, hleast⟩⟩
  · have hup : unique_path fs p = p := by simp [unique_path, hp]
    exact ⟨by rw [hup]; exact hp, fun _ => hup, fun h => absurd h hp⟩

/-- The collision-freedom of `unique_path`, the form used throughout the
pipeline proofs. -/
theorem unique_path_free (fs : FS) (p : FPath) : ¬ fs.Has (unique_path fs p) :=
  (unique_path_spec fs p).1

/-! ## Lemmas: the name sanitisers -/

theorem noDoubleWs_chain : ∀ l : Name, NoDoubleWs l ↔
    l.Chain' (fun a b => ¬(isSpacePy a = true ∧ isSpacePy b = true))
  | [] => by simp [NoDoubleWs, noDoubleWsB]
  | [c] => by simp [NoDoubleWs, noDoubleWsB]
  | a :: b :: t => by
    have ih := noDoubleWs_chain (b :: t)
    rw [NoDoubleWs] at ih ⊢
    rw [List.chain'_cons, noDoubleWsB, Bool.and_eq_true]
    constructor
    · rintro ⟨h1, h2⟩
      refine ⟨?_, ih.mp h2⟩
      rintro ⟨ha, hb⟩
      rw [ha, hb] at h1
      simp at h1
    · rintro ⟨h1, h2⟩
      refine ⟨?_, ih.mpr h2⟩
      cases hab : (isSpacePy a && isSpacePy b)
      · rfl
      · rw [Bool.and_eq_true] at hab
        exact absurd hab h1

theorem mem_pyTranslate {c : Char} {s : Name} (h : c ∈ pyTranslate s) :
    c ∉ INVALID_FS_CHARS := by
  rw [pyTranslate, List.mem_map] at h
  obtain ⟨a, _, rfl⟩ := h
  by_cases ha : a ∈ INVALID_FS_CHARS
  · simp only [if_pos ha]
    decide
  · simp [ha]

theorem mem_pyStrip {c : Char} {s : Name} (h : c ∈ pyStrip s) : c ∈ s := by
  rw [pyStrip, List.mem_reverse] at h
  have h1 := (List.dropWhile_sublist (l := (s.dropWhile isSpacePy).reverse) isSpacePy).subset h
  rw [List.mem_reverse] at h1
  exact (List.dropWhile_sublist isSpacePy).subset h1

theorem mem_rstripDotSpace {c : Char} {s : Name} (h : c ∈ rstripDotSpace s) :
    c ∈ s := by
  rw [rstripDotSpace, List.mem_reverse] at h
  have h1 := (List.dropWhile_sublist (l := s.reverse) _).subset h
  rwa [List.mem_reverse] at h1

theorem mem_collapseWs {c : Char} : ∀ {s : Name}, c ∈ collapseWs s →
    c ∈ s ∨ c = ' '
  | [], h => by simp [collapseWs] at h
  | [d], h => by
    by_cases hd : isSpacePy d
    · simp [collapseWs, hd] at h
      simp [h]
    · simp [collapseWs, hd] at h
      simp [h]
  | d :: e :: t, h => by
    by_cases hde : isSpacePy d && isSpacePy e
    · rw [collapseWs, if_pos hde] at h
      rcases mem_collapseWs h with h1 | h1
      · exact Or.inl (List.mem_cons_of_mem _ h1)
      · exact Or.inr h1
    · rw [collapseWs, if_neg hde] at h
      rcases List.mem_cons.mp h with rfl | h1
      · by_cases hd : isSpacePy d
        · simp [hd]
        · simp [hd]
      · rcases mem_collapseWs h1 with h2 | h2
        · exact Or.inl (List.mem_cons_of_mem _ h2)
        · exact Or.inr h2

theorem collapseWs_cons_head : ∀ (t : Name) (c : Char),
    ∃ e r, collapseWs (c :: t) = e :: r ∧ isSpacePy e = isSpacePy c
  | [], c => by
    by_cases hc : isSpacePy c
    · exact ⟨' ', [], by simp [collapseWs, hc], by simp [hc]; rfl⟩
    · exact ⟨c, [], by simp [collapseWs, hc], rfl⟩
  | d :: t, c => by
    by_cases hcd : isSpacePy c && isSpacePy d
    · obtain ⟨e, r, he, hws⟩ := collapseWs_cons_head t d
      refine ⟨e, r, by rw [collapseWs, if_pos hcd]; exact he, ?_⟩
      rw [hws]
      rw [Bool.and_eq_true] at hcd
      rw [hcd.1, hcd.2]
    · by_cases hc : isSpacePy c
      · exact ⟨' ', collapseWs (d :: t), by rw [collapseWs, if_neg hcd, if_pos hc],
          by simp [hc]; rfl⟩
      · exact ⟨c, collapseWs (d :: t), by rw [collapseWs, if_neg hcd, if_neg hc], rfl⟩

theorem collapseWs_chainAux : ∀ s : Name,
    (collapseWs s).Chain' (fun a b => ¬(isSpacePy a = true ∧ isSpacePy b = true))
  | [] => by simp [collapseWs]
  | [c] => by
    by_cases hc : isSpacePy c <;> simp [collapseWs, hc]
  | c :: d :: t => by
    by_cases hcd : isSpacePy c && isSpacePy d
    · rw [collapseWs, if_pos hcd]
      exact collapseWs_chainAux (d :: t)
    · rw [collapseWs, if_neg hcd]
      obtain ⟨e, r, he, hws⟩ := collapseWs_cons_head t d
      rw [he]
      have ihr : ((e :: r) : Name).Chain'
          (fun a b => ¬(isSpacePy a = true ∧ isSpacePy b = true)) := by
        rw [← he]
        exact collapseWs_chainAux (d :: t)
      refine List.chain'_cons.mpr ⟨?_, ihr⟩
      rw [Bool.and_eq_true] at hcd
      by_cases hc : isSpacePy c
      · have hd : isSpacePy d = false := by
          cases hd : isSpacePy d
          · rfl
          · exact absurd ⟨hc, hd⟩ hcd
        simp only [if_pos hc, hws, hd]
        rintro ⟨-, h⟩
        exact Bool.false_ne_true h
      · simp only [if_neg hc]
        rintro ⟨h, -⟩
        exact hc h

theorem collapseWs_noDoubleWs (s : Name) : NoDoubleWs (collapseWs s) :=
  (noDoubleWs_chain _).mpr (collapseWs_chainAux s)

theorem noDoubleWs_of_prefixOf {l m : Name} (h : NoDoubleWs m) (hp : l <+: m) :
    NoDoubleWs l := by
  have hc := List.Chain'.prefix ((noDoubleWs_chain m).mp h) hp
  exact (noDoubleWs_chain l).mpr hc

theorem rstripDotSpace_prefixOf (s : Name) : rstripDotSpace s <+: s := by
  have h2 : (s.reverse.dropWhile (fun c => c = ' ' || c = '.')) <:+ s.reverse :=
    List.dropWhile_suffix _
  have h3 := List.reverse_prefix.mpr h2
  rw [List.reverse_reverse] at h3
  exact h3

theorem head?_dropWhile {p : Char → Bool} :
    ∀ {l : Name} {c : Char}, (l.dropWhile p).head? = some c → p c = false := by
  intro l
  induction l with
  | nil => intro c h; simp [List.dropWhile] at h
  | cons a t ih =>
    intro c h
    by_cases ha : p a
    · rw [List.dropWhile_cons_of_pos ha] at h
      exact ih h
    · rw [List.dropWhile_cons_of_neg ha] at h
      simp only [List.head?_cons, Option.some.injEq] at h
      subst h
      simpa using ha

theorem rstripDotSpace_getLast? {s : Name} {c : Char}
    (h : (rstripDotSpace s).getLast? = some c) : c ≠ ' ' ∧ c ≠ '.' := by
  rw [rstripDotSpace, List.getLast?_reverse] at h
  have := head?_dropWhile h
  constructor
  · intro e; rw [e] at this; simp at this
  · intro e; rw [e] at this; simp at this

theorem rstripDotSpace_length (s : Name) :
    (rstripDotSpace s).length ≤ s.length :=
  (rstripDotSpace_prefixOf s).length_le

theorem attachmentName_props :
    (∀ c ∈ attachmentName, c ∉ INVALID_FS_CHARS) ∧ NoDoubleWs attachmentName ∧
      attachmentName ≠ [] := by
  decide

theorem messageName_props :
    (∀ c ∈ messageName, c ∉ INVALID_FS_CHARS) ∧ NoDoubleWs messageName ∧
      messageName ≠ [] ∧ messageName.length ≤ MAX_NAME ∧
      (∀ c, messageName.getLast? = some c → c ≠ ' ' ∧ c ≠ '.') := by
  decide

/--
**C3 (amended).** For every input string, the sanitised folder and file
names contain none of the characters `< > : " / \ | ? *`, contain no two
consecutive whitespace characters, substitute the fixed fallback
(`message` for folders, `attachment` for files) when the cleaned result
is empty, and are at most 150 characters long.  `safe_folder_name`
additionally never ends in a dot or a space.  (`safe_file_name` strips
trailing dots and spaces before collapsing whitespace and truncating, so
its result can end in a dot or a space — see the counterexample.)
-/
theorem claim_C3_sanitized_names (s : Name) :
    (∀ c ∈ safe_folder_name s, c ∉ INVALID_FS_CHARS) ∧
    NoDoubleWs (safe_folder_name s) ∧
    safe_folder_name s ≠ [] ∧
    (safe_folder_name s).length ≤ MAX_NAME ∧
    (∀ c, (safe_folder_name s).getLast? = some c → c ≠ ' ' ∧ c ≠ '.') ∧
    (rstripDotSpace ((collapseWs (pyStrip (pyTranslate s))).take MAX_NAME) = [] →
      safe_folder_name s = messageName) ∧
    (∀ c ∈ safe_file_name s, c ∉ INVALID_FS_CHARS) ∧
    NoDoubleWs (safe_file_name s) ∧
    safe_file_name s ≠ [] ∧
    (safe_file_name s).length ≤ MAX_NAME ∧
    (collapseWs (rstripDotSpace (pyStrip (pyTranslate
        (pyPathName (if s = [] then attachmentName else s))))) = [] →
      safe_file_name s = attachmentName) := by
  constructor
  · -- folder: no illegal characters
    intro c hc
    rw [safe_folder_name] at hc
    by_cases hr : rstripDotSpace ((collapseWs (pyStrip (pyTranslate s))).take MAX_NAME) = []
    · rw [if_pos hr] at hc
      exact messageName_props.1 c hc
    · rw [if_neg hr] at hc
      have h1 := mem_rstripDotSpace hc
      have h2 := (List.take_prefix MAX_NAME _).subset h1
      rcases mem_collapseWs h2 with h3 | h3
      · exact mem_pyTranslate (mem_pyStrip h3)
      · subst h3; decide
  constructor
  · -- folder: no double whitespace
    rw [safe_folder_name]
    by_cases hr : rstripDotSpace ((collapseWs (pyStrip (pyTranslate s))).take MAX_NAME) = []
    · rw [if_pos hr]
      exact messageName_props.2.1
    · rw [if_neg hr]
      exact noDoubleWs_of_prefixOf
        (noDoubleWs_of_prefixOf (collapseWs_noDoubleWs _) (List.take_prefix _ _))
        (rstripDotSpace_prefixOf _)
  constructor
  · -- folder: nonempty
    rw [safe_folder_name]
    by_cases hr : rstripDotSpace ((collapseWs (pyStrip (pyTranslate s))).take MAX_NAME) = []
    · rw [if_pos hr]
      exact messageName_props.2.2.1
    · rw [if_neg hr]
      exact hr
  constructor
  · -- folder: length bound
    rw [safe_folder_name]
    by_cases hr : rstripDotSpace ((collapseWs (pyStrip (pyTranslate s))).take MAX_NAME) = []
    · rw [if_pos hr]
      exact messageName_props.2.2.2.1
    · rw [if_neg hr]
      exact le_trans (rstripDotSpace_length _) (List.length_take_le _ _)
  constructor
  · -- folder: no trailing space or dot
    intro c hc
    rw [safe_folder_name] at hc
    by_cases hr : rstripDotSpace ((collapseWs (pyStrip (pyTranslate s))).take MAX_NAME) = []
    · rw [if_pos hr] at hc
      exact messageName_props.2.2.2.2 c hc
    · rw [if_neg hr] at hc
      exact rstripDotSpace_getLast? hc
  constructor
  · -- folder: fallback
    intro hr
    rw [safe_folder_name, if_pos hr]
  constructor
  · -- file: no illegal characters
    intro c hc
    rw [safe_file_name] at hc
    have h1 := (List.take_prefix MAX_NAME _).subset hc
    by_cases hb : collapseWs (rstripDotSpace (pyStrip (pyTranslate
        (pyPathName (if s = [] then attachmentName else s))))) = []
    · rw [if_pos hb] at h1
      exact attachmentName_props.1 c h1
    · rw [if_neg hb] at h1
      rcases mem_collapseWs h1 with h3 | h3
      · exact mem_pyTranslate (mem_pyStrip (mem_rstripDotSpace h3))
      · subst h3; decide
  constructor
  · -- file: no double whitespace
    rw [safe_file_name]
    by_cases hb : collapseWs (rstripDotSpace (pyStrip (pyTranslate
        (pyPathName (if s = [] then attachmentName else s))))) = []
    · rw [if_pos hb]
      exact noDoubleWs_of_prefixOf attachmentName_props.2.1 (List.take_prefix _ _)
    · rw [if_neg hb]
      exact noDoubleWs_of_prefixOf (collapseWs_noDoubleWs _) (List.take_prefix _ _)
  constructor
  · -- file: nonempty
    rw [safe_file_name]
    intro he
    rw [List.take_eq_nil_iff] at he
    rcases he with he | he
    · exact absurd he (by decide)
    · by_cases hb : collapseWs (rstripDotSpace (pyStrip (pyTranslate
          (pyPathName (if s = [] then attachmentName else s))))) = []
      · rw [if_pos hb] at he
        exact absurd he (by decide)
      · rw [if_neg hb] at he
        exact hb he
  constructor
  · -- file: length bound
    rw [safe_file_name]
    exact List.length_take_le _ _
  · -- file: fallback
    intro hb
    rw [safe_file_name, if_pos hb]
    decide

/--
**C3 counterexample.** `safe_file_name "a\t."` is `"a "`: the trailing
dot is stripped before the tab is collapsed into a space, so the result
ends in a space, refuting the no-trailing-dot-or-space part of the claim
for `safe_file_name`.
-/
theorem claim_C3_counterexample :
    safe_file_name ('a' :: '\t' :: '.' :: []) = 'a' :: ' ' :: [] ∧
    (safe_file_name ('a' :: '\t' :: '.' :: [])).getLast? = some ' ' := by
  decide

/-- Witness for the amended C3 theorem at the spec's own example input
`"A/B:C*D?"`. -/
theorem claim_C3_sanitized_names_witness :
    safe_folder_name ("A/B:C*D?".toList) ≠ [] ∧
    (safe_folder_name ("A/B:C*D?".toList)).length ≤ MAX_NAME ∧
    NoDoubleWs (safe_file_name ("A/B:C*D?".toList)) :=
  ⟨(claim_C3_sanitized_names ("A/B:C*D?".toList)).2.2.1,
   (claim_C3_sanitized_names ("A/B:C*D?".toList)).2.2.2.1,
   (claim_C3_sanitized_names ("A/B:C*D?".toList)).2.2.2.2.2.2.2.1⟩

/-! ## Lemmas: the SR-token scanner vs its declarative reading -/

theorem digit_isWordChar {c : Char} (h : c.isDigit = true) :
    isWordChar c = true := by
  rw [isWordChar, h]
  simp

theorem digitsRun_spec : ∀ t : Name, ∃ ds,
    t = ds ++ (digitsRun t).2 ∧ (digitsRun t).1 = ds.length ∧ DigitRun ds ∧
      ∀ c, (digitsRun t).2.head? = some c → c.isDigit = false
  | [] => ⟨[], by simp [digitsRun], by simp [digitsRun], by simp [DigitRun],
      by simp [digitsRun]⟩
  | c :: t => by
    by_cases hc : c.isDigit
    · obtain ⟨ds, h1, h2, h3, h4⟩ := digitsRun_spec t
      refine ⟨c :: ds, ?_, ?_, ?_, ?_⟩
      · simp only [digitsRun, if_pos hc]
        rw [List.cons_append, ← h1]
      · simp only [digitsRun, if_pos hc, List.length_cons]
        omega
      · intro d hd
        rcases List.mem_cons.mp hd with rfl | hd
        · exact hc
        · exact h3 d hd
      · simp only [digitsRun, if_pos hc]
        exact h4
    · refine ⟨[], by simp [digitsRun, hc], by simp [digitsRun, hc],
        by simp [DigitRun], ?_⟩
      simp only [digitsRun, if_neg hc, List.head?_cons]
      intro d hd
      cases hd
      cases hcd : c.isDigit
      · rfl
      · exact absurd hcd hc

theorem digitsRun_append {ds rest : Name} (hds : DigitRun ds)
    (hr : ∀ c, rest.head? = some c → c.isDigit = false) :
    digitsRun (ds ++ rest) = (ds.length, rest) := by
  induction ds with
  | nil =>
    cases rest with
    | nil => simp [digitsRun]
    | cons c t =>
      have := hr c (by simp)
      simp [digitsRun, this]
  | cons d ds ih =>
    have hd : d.isDigit = true := hds d (by simp)
    have ih2 := ih (fun c hc => hds c (List.mem_cons_of_mem _ hc))
    simp only [List.cons_append, digitsRun, if_pos hd, List.append_eq, ih2,
      List.length_cons]

theorem srAt_iff (l : Name) : srAt l = true ↔
    ∃ c1 c2 ds post, l = c1 :: c2 :: (ds ++ post) ∧
      (c1 = 'S' ∨ c1 = 's') ∧ (c2 = 'R' ∨ c2 = 'r') ∧
      8 ≤ ds.length ∧ DigitRun ds ∧
      (∀ c, post.head? = some c → isWordChar c = false) := by
  constructor
  · intro h
    match l, h with
    | c1 :: c2 :: rest, h =>
      simp only [srAt, Bool.and_eq_true, Bool.or_eq_true, decide_eq_true_eq] at h
      obtain ⟨⟨h1, h2⟩, h3, h4⟩ := h
      obtain ⟨ds, e1, e2, e3, _⟩ := digitsRun_spec rest
      refine ⟨c1, c2, ds, (digitsRun rest).2, by rw [← e1], h1, h2, by omega, e3, ?_⟩
      intro c hc
      cases hr2 : (digitsRun rest).2 with
      | nil =>
        rw [hr2] at hc
        simp at hc
      | cons d t =>
        rw [hr2] at hc h4
        simp only [List.head?_cons, Option.some.injEq] at hc
        subst hc
        simpa using h4
  · rintro ⟨c1, c2, ds, post, rfl, h1, h2, h3, h4, h5⟩
    have hpost : ∀ c, post.head? = some c → c.isDigit = false := by
      intro c hc
      have := h5 c hc
      cases hd : c.isDigit
      · rfl
      · rw [digit_isWordChar hd] at this
        exact absurd this (by simp)
    simp only [srAt]
    rw [digitsRun_append h4 hpost]
    simp only [Bool.and_eq_true, Bool.or_eq_true, decide_eq_true_eq]
    refine ⟨⟨h1, h2⟩, h3, ?_⟩
    cases post with
    | nil => simp
    | cons c t =>
      have := h5 c (by simp)
      simp [this]

theorem preOk_cons (bdry : Bool) (c : Char) (pre : Name) :
    preOk bdry (c :: pre) = preOk (!isWordChar c) pre := by
  cases pre with
  | nil => simp [preOk]
  | cons d t =>
    simp only [preOk, List.getLast?_cons_cons]
    cases h : (d :: t).getLast? with
    | none => simp at h
    | some x => rfl

theorem preOk_true_iff (pre : Name) :
    preOk true pre = true ↔ ∀ c, pre.getLast? = some c → isWordChar c = false := by
  cases hl : pre.getLast? with
  | none => simp [preOk, hl]
  | some c => simp [preOk, hl]

theorem srSearchGo_iff : ∀ (t : Name) (bdry : Bool),
    srSearchGo bdry t = true ↔
      ∃ pre rest, t = pre ++ rest ∧ srAt rest = true ∧ preOk bdry pre = true
  | [], bdry => by
    simp only [srSearchGo, Bool.false_eq_true, false_iff]
    rintro ⟨pre, rest, h, hat, -⟩
    obtain ⟨rfl, rfl⟩ := List.append_eq_nil.mp h.symm
    simp [srAt] at hat
  | c :: t, bdry => by
    have ih := srSearchGo_iff t (!isWordChar c)
    rw [srSearchGo, Bool.or_eq_true, Bool.and_eq_true]
    constructor
    · rintro (⟨hb, hat⟩ | hgo)
      · exact ⟨[], c :: t, rfl, hat, by simpa [preOk] using hb⟩
      · obtain ⟨pre, rest, e, hat, hok⟩ := ih.mp hgo
        exact ⟨c :: pre, rest, by rw [List.cons_append, ← e], hat,
          by rw [preOk_cons]; exact hok⟩
    · rintro ⟨pre, rest, e, hat, hok⟩
      cases pre with
      | nil =>
        left
        simp only [List.nil_append] at e
        subst e
        exact ⟨by simpa [preOk] using hok, hat⟩
      | cons c' pre' =>
        right
        rw [List.cons_append] at e
        injection e with e1 e2
        subst e1
        exact ih.mpr ⟨pre', rest, e2, hat, by rw [← preOk_cons]; exact hok⟩

theorem SR_pattern_search_iff (s : Name) :
    SR_pattern_search s = true ↔ SRTokenSpec s := by
  rw [SR_pattern_search, srSearchGo_iff]
  constructor
  · rintro ⟨pre, rest, rfl, hat, hok⟩
    obtain ⟨c1, c2, ds, post, rfl, h1, h2, h3, h4, h5⟩ := (srAt_iff rest).mp hat
    exact ⟨pre, c1, c2, ds, post, rfl, h1, h2, h3, h4,
      (preOk_true_iff pre).mp hok, h5⟩
  · rintro ⟨pre, c1, c2, ds, post, rfl, h1, h2, h3, h4, h5, h6⟩
    exact ⟨pre, _, rfl, (srAt_iff _).mpr ⟨c1, c2, ds, post, rfl, h1, h2, h3, h4, h6⟩,
      (preOk_true_iff pre).mpr h5⟩

/-! ## Lemmas: the reply-marker scanner vs its declarative reading -/

theorem wsRun_append {w1 w2 : Name} (h1 : WsRun w1) (h2 : WsRun w2) :
    WsRun (w1 ++ w2) := by
  intro c hc
  rcases List.mem_append.mp hc with h | h
  · exact h1 c h
  · exact h2 c h

theorem dropWhile_ws_of_append {w t : Name} (hw : WsRun w)
    (hh : ∀ c, t.head? = some c → isSpacePy c = false) :
    (w ++ t).dropWhile isSpacePy = t := by
  induction w with
  | nil =>
    cases t with
    | nil => simp
    | cons c r =>
      simp only [List.nil_append]
      exact List.dropWhile_cons_of_neg (by simp [hh c rfl])
  | cons a w ih =>
    rw [List.cons_append,
      List.dropWhile_cons_of_pos (hw a (List.mem_cons_self a w))]
    exact ih (fun c hc => hw c (List.mem_cons_of_mem _ hc))

theorem takeWhile_wsRun (s : Name) : WsRun (s.takeWhile isSpacePy) :=
  fun _ hc => List.mem_takeWhile_imp hc

theorem isSpacePy_of_reLetter {c : Char} (h : c = 'R' ∨ c = 'r') :
    isSpacePy c = false := by
  rcases h with rfl | rfl <;> decide

theorem RE_pattern_search_iff (s : Name) :
    RE_pattern_search s = true ↔ ReplyMarkSpec s := by
  constructor
  · intro h
    have hsplit := List.takeWhile_append_dropWhile isSpacePy s
    unfold RE_pattern_search at h
    rcases hs1 : s.dropWhile isSpacePy with - | ⟨c1, rest1⟩
    · rw [hs1] at h
      simp at h
    rcases rest1 with - | ⟨c2, rest⟩
    · rw [hs1] at h
      simp at h
    rw [hs1] at h
    simp only [Bool.and_eq_true, Bool.or_eq_true, decide_eq_true_eq] at h
    obtain ⟨⟨h1, h2⟩, h3⟩ := h
    rw [hs1] at hsplit
    have hw1 : WsRun (s.takeWhile isSpacePy) := takeWhile_wsRun s
    have hrsplit := List.takeWhile_append_dropWhile isSpacePy rest
    have hw2 : WsRun (rest.takeWhile isSpacePy) := takeWhile_wsRun rest
    rcases hs2 : rest.dropWhile isSpacePy with - | ⟨c3, t3⟩
    · rw [hs2] at h3
      simp [reTail] at h3
    rw [hs2] at h3 hrsplit
    by_cases hc3 : c3 = ':'
    · subst hc3
      refine ⟨s.takeWhile isSpacePy, c1, c2, rest.takeWhile isSpacePy, [], [], t3,
        ?_, hw1, hw2, by simp [WsRun], h1, h2, Or.inl rfl⟩
      have hkey : List.takeWhile isSpacePy rest ++ ([] : Name) ++ ([] : Name) ++
          ':' :: t3 = rest := by
        simp only [List.append_nil]
        exact hrsplit
      rw [hkey]
      exact hsplit.symm
    · rw [reTail, if_neg hc3] at h3
      by_cases hc3b : c3 = '['
      · subst hc3b
        rw [if_pos rfl, Bool.and_eq_true, decide_eq_true_eq] at h3
        obtain ⟨hlen, hrest⟩ := h3
        obtain ⟨ds, e1, e2, e3, -⟩ := digitsRun_spec t3
        rcases hs3 : (digitsRun t3).2 with - | ⟨c4, t4⟩
        · rw [hs3] at hrest
          simp [reBracketRest] at hrest
        rw [hs3] at hrest e1
        rw [reBracketRest, Bool.and_eq_true, decide_eq_true_eq] at hrest
        obtain ⟨hc4, hcolon⟩ := hrest
        subst hc4
        have ht4split := List.takeWhile_append_dropWhile isSpacePy t4
        have hw3 : WsRun (t4.takeWhile isSpacePy) := takeWhile_wsRun t4
        rcases hs4 : t4.dropWhile isSpacePy with - | ⟨c5, t5⟩
        · rw [hs4] at hcolon
          simp [reColon] at hcolon
        rw [hs4] at hcolon ht4split
        rw [reColon, decide_eq_true_eq] at hcolon
        subst hcolon
        refine ⟨s.takeWhile isSpacePy, c1, c2, rest.takeWhile isSpacePy,
          '[' :: ds ++ [']'], t4.takeWhile isSpacePy, t5,
          ?_, hw1, hw2, hw3, h1, h2, Or.inr ⟨ds, rfl, ?_, e3⟩⟩
        · have hkey : List.takeWhile isSpacePy rest ++ ('[' :: ds ++ [']']) ++
              List.takeWhile isSpacePy t4 ++ ':' :: t5 = rest := by
            simp only [List.append_assoc, List.cons_append, List.singleton_append,
              List.nil_append]
            rw [ht4split, ← e1]
            exact hrsplit
          rw [hkey]
          exact hsplit.symm
        · intro he
          rw [he] at e2
          simp at e2
          omega
      · rw [if_neg hc3b] at h3
        exact absurd h3 (by simp)
  · rintro ⟨w1, c1, c2, w2, br, w3, t, rfl, hw1, hw2, hw3, h1, h2, hbr⟩
    have hdrop1 : (w1 ++ c1 :: c2 :: (w2 ++ br ++ w3 ++ ':' :: t)).dropWhile
        isSpacePy = c1 :: c2 :: (w2 ++ br ++ w3 ++ ':' :: t) :=
      dropWhile_ws_of_append hw1
        (fun c hc => by
          simp only [List.head?_cons, Option.some.injEq] at hc
          subst hc
          exact isSpacePy_of_reLetter h1)
    unfold RE_pattern_search
    rw [hdrop1]
    simp only [Bool.and_eq_true, Bool.or_eq_true, decide_eq_true_eq]
    refine ⟨⟨h1, h2⟩, ?_⟩
    rcases hbr with rfl | ⟨ds, rfl, hds, hdig⟩
    · have : w2 ++ [] ++ w3 ++ ':' :: t = (w2 ++ w3) ++ ':' :: t := by simp
      rw [this, dropWhile_ws_of_append (wsRun_append hw2 hw3)
        (fun c hc => by
          simp only [List.head?_cons, Option.some.injEq] at hc
          subst hc
          decide)]
      simp [reTail]
    · have : w2 ++ ('[' :: ds ++ [']']) ++ w3 ++ ':' :: t =
          w2 ++ ('[' :: (ds ++ ']' :: (w3 ++ ':' :: t))) := by simp
      rw [this, dropWhile_ws_of_append hw2
        (fun c hc => by
          simp only [List.head?_cons, Option.some.injEq] at hc
          subst hc
          decide)]
      rw [reTail, if_neg (by decide), if_pos rfl]
      rw [digitsRun_append hdig
        (fun c hc => by
          simp only [List.head?_cons, Option.some.injEq] at hc
          subst hc
          decide)]
      simp only [Bool.and_eq_true, decide_eq_true_eq]
      refine ⟨by cases ds with
        | nil => exact absurd rfl hds
        | cons a l => simp, ?_⟩
      rw [reBracketRest, dropWhile_ws_of_append hw3
        (fun c hc => by
          simp only [List.head?_cons, Option.some.injEq] at hc
          subst hc
          decide)]
      simp [reColon]

/--
**C1 (amended).** The pipeline accepts a mail item for processing iff its
subject contains, anywhere as a whole word, a case-insensitive token `SR`
followed by at least 8 digits, and the subject does not begin (after
optional leading whitespace) with a case-insensitive reply marker made of
`RE`, an optional bracketed reply count `[n]`, and a colon, where
whitespace may also appear between `RE`, the bracket and the colon.
-/
theorem claim_C1_classification (s : Name) :
    accepts s = true ↔ (SRTokenSpec s ∧ ¬ ReplyMarkSpec s) := by
  constructor
  · intro h
    rw [accepts, Bool.and_eq_true] at h
    obtain ⟨h1, h2⟩ := h
    refine ⟨(SR_pattern_search_iff s).mp h1, ?_⟩
    intro hr
    rw [(RE_pattern_search_iff s).mpr hr] at h2
    exact absurd h2 (by simp)
  · rintro ⟨h1, h2⟩
    rw [accepts, Bool.and_eq_true]
    refine ⟨(SR_pattern_search_iff s).mpr h1, ?_⟩
    cases hre : RE_pattern_search s
    · rfl
    · exact absurd ((RE_pattern_search_iff s).mp hre) h2

/--
**C1 counterexample.** The subject `"RE : SR12345678"` contains the SR
token as a whole word and does not begin with a literal `RE:`/`RE[n]:`
marker (there is a space between `RE` and the colon), so the claim as
stated says it is accepted; the code's reply regex tolerates that
whitespace and rejects it.
-/
theorem claim_C1_counterexample :
    SRTokenSpec ("RE : SR12345678".toList) ∧
    claimReplyMark ("RE : SR12345678".toList) = false ∧
    claimAccepts ("RE : SR12345678".toList) = true ∧
    accepts ("RE : SR12345678".toList) = false := by
  refine ⟨?_, by decide, by decide, by decide⟩
  refine ⟨"RE : ".toList, 'S', 'R', "12345678".toList, [], by decide,
    Or.inl rfl, Or.inl rfl, by decide, by decide, ?_, ?_⟩
  · intro c hc
    rw [show (("RE : ".toList : Name)).getLast? = some ' ' from rfl] at hc
    injection hc with h
    subst h
    decide
  · intro c hc
    simp at hc

/-- Witness for the amended C1 theorem at the spec's accepted example
subject. -/
theorem claim_C1_classification_witness :
    accepts ("Project SR12345678 update".toList) = true ↔
      (SRTokenSpec ("Project SR12345678 update".toList) ∧
        ¬ ReplyMarkSpec ("Project SR12345678 update".toList)) :=
  claim_C1_classification ("Project SR12345678 update".toList)

/--
**C6.** `unique_path p` returns `p` itself when nothing exists at `p`;
otherwise it returns the first path of the form `stem_i.ext` (same
directory, pathlib stem and suffix of `p`, `i = 2, 3, ...` probed in
increasing order) at which nothing exists, so the returned path never
collides with an existing filesystem entry.
-/
theorem claim_C6_unique_path (fs : FS) (p : FPath) :
    (¬ fs.Has p → unique_path fs p = p) ∧
    (fs.Has p → ∃ i, 2 ≤ i ∧
      unique_path fs p =
        candPath p.dropLast (pySplitExt (p.getLastD [])).1
          (pySplitExt (p.getLastD [])).2 i ∧
      ¬ fs.Has (candPath p.dropLast (pySplitExt (p.getLastD [])).1
          (pySplitExt (p.getLastD [])).2 i) ∧
      ∀ j, 2 ≤ j → j < i →
        fs.Has (candPath p.dropLast (pySplitExt (p.getLastD [])).1
          (pySplitExt (p.getLastD [])).2 j)) ∧
    ¬ fs.Has (unique_path fs p) :=
  ⟨(unique_path_spec fs p).2.1, (unique_path_spec fs p).2.2,
    (unique_path_spec fs p).1⟩

/-- Witness for C6: an occupied path gets a fresh numbered sibling, an
unoccupied path is returned unchanged. -/
theorem claim_C6_unique_path_witness :
    unique_path ⟨[], []⟩ ["d".toList, "a.txt".toList] =
      ["d".toList, "a.txt".toList] ∧
    ¬ FS.Has ⟨[["d".toList, "a.txt".toList]], []⟩
      (unique_path ⟨[["d".toList, "a.txt".toList]], []⟩
        ["d".toList, "a.txt".toList]) :=
  ⟨(claim_C6_unique_path ⟨[], []⟩ ["d".toList, "a.txt".toList]).1 (by decide),
   (claim_C6_unique_path ⟨[["d".toList, "a.txt".toList]], []⟩
      ["d".toList, "a.txt".toList]).2.2⟩

theorem log_roundtrip (s : Finset Name) : load_log (save_log s) = s := by
  rw [load_log, save_log]
  exact Finset.sort_toFinset _ s

/--
**C10.** The processed-set persistence round-trips: for every finite set
of identifier strings, `load_log` applied to the list that `save_log`
persists returns exactly that set; the sorted serialisation loses no
element and adds none.
-/
theorem claim_C10_log_roundtrip (s : Finset Name) : load_log (save_log s) = s :=
  log_roundtrip s

/--
**C7.** A run started while a lock marker no older than the 15-minute
threshold exists exits immediately with success (`SystemExit(0)`),
leaves the marker in place, and processes nothing; a run started against
an older marker deletes it, runs the body under a fresh lock, and the
lock is released on both the normal and the raising exit of the body.
-/
theorem claim_C7_lock (now t : Int) (bodyRaises : Bool) :
    (now - t ≤ LOCK_MAX_AGE_SECS →
      single_instance_lock now (some t) bodyRaises =
        ⟨RunOutcome.exitedEarly, some t, false⟩) ∧
    (now - t > LOCK_MAX_AGE_SECS →
      single_instance_lock now (some t) bodyRaises =
        ⟨if bodyRaises then RunOutcome.raised else RunOutcome.completed,
          none, true⟩) ∧
    single_instance_lock now none bodyRaises =
      ⟨if bodyRaises then RunOutcome.raised else RunOutcome.completed,
        none, true⟩ := by
  refine ⟨?_, ?_, ?_⟩
  · intro h
    have h2 : ¬(now - t > LOCK_MAX_AGE_SECS) := not_lt.mpr h
    simp [single_instance_lock, h2]
  · intro h
    simp [single_instance_lock, h]
  · simp [single_instance_lock]

/-- Witness for C7: a fresh 800-second-old lock forces an early success
exit; an 1800-second-old lock is stale, the body runs and the lock is
released. -/
theorem claim_C7_lock_witness :
    single_instance_lock 1000 (some 200) false =
      ⟨RunOutcome.exitedEarly, some 200, false⟩ ∧
    single_instance_lock 2000 (some 200) true =
      ⟨RunOutcome.raised, none, true⟩ :=
  ⟨(claim_C7_lock 1000 200 false).1 (by decide),
   by
    have h := (claim_C7_lock 2000 200 true).2.1 (by decide)
    simpa using h⟩

/-! ## Lemmas: secure extraction -/

theorem prefOf_iff : ∀ a b : FPath, prefOf a b = true ↔ a <+: b
  | [], b => by simp [prefOf]
  | a :: as, [] => by
    simp only [prefOf, Bool.false_eq_true, false_iff]
    exact fun h => by simpa using h.length_le
  | a :: as, b :: bs => by
    rw [prefOf, Bool.and_eq_true, beq_iff_eq, prefOf_iff as bs]
    constructor
    · rintro ⟨rfl, t, ht⟩
      exact ⟨t, by rw [List.cons_append, ht]⟩
    · rintro ⟨t, ht⟩
      rw [List.cons_append] at ht
      injection ht with h1 h2
      exact ⟨h1, t, h2⟩

/--
**C4.** Extraction never writes outside the destination: every member
that `secure_extract_member` writes lands, after path resolution, inside
the resolved destination directory (the member's own directory path
having been discarded in favour of its sanitised base name); a member
that is skipped — a directory entry, an empty base name, or a resolved
path outside the destination — leaves the filesystem untouched and does
not stop extraction of the remaining members.
-/
theorem claim_C4_traversal_safety (fs : FS) (dest : FPath) (m : Member)
    (ms : List Member) :
    (∀ out fs1, secure_extract_member fs dest m = (some out, fs1) →
      resolvePath dest <+: resolvePath out ∧
      out = unique_path fs (dest ++ [safe_file_name (pyPathName m.filename)]) ∧
      fs1 = fs.addFile out) ∧
    ((secure_extract_member fs dest m).1 = none →
      (secure_extract_member fs dest m).2 = fs ∧
      extractAll dest fs (m :: ms) = extractAll dest fs ms) := by
  constructor
  · intro out fs1 h
    rw [secure_extract_member] at h
    by_cases hd : m.isDir
    · rw [if_pos hd] at h
      exact absurd h (by simp)
    rw [if_neg hd] at h
    by_cases hf : pyPathName m.filename = []
    · rw [if_pos hf] at h
      exact absurd h (by simp)
    rw [if_neg hf] at h
    by_cases hpref : prefOf (resolvePath dest)
        (resolvePath (unique_path fs (dest ++ [safe_file_name (pyPathName m.filename)])))
    · rw [if_pos hpref] at h
      injection h with h1 h2
      injection h1 with h1
      subst h1
      exact ⟨(prefOf_iff _ _).mp hpref, rfl, h2.symm⟩
    · rw [if_neg hpref] at h
      exact absurd h (by simp)
  · intro h
    constructor
    · rw [secure_extract_member] at h ⊢
      by_cases hd : m.isDir
      · rw [if_pos hd]
      · rw [if_neg hd] at h ⊢
        by_cases hf : pyPathName m.filename = []
        · rw [if_pos hf]
        · rw [if_neg hf] at h ⊢
          by_cases hpref : prefOf (resolvePath dest)
              (resolvePath (unique_path fs (dest ++ [safe_file_name (pyPathName m.filename)])))
          · rw [if_pos hpref] at h
            exact absurd h (by simp)
          · rw [if_neg hpref]
    · rw [extractAll]
      rcases hsec : secure_extract_member fs dest m with ⟨o, fs2⟩
      cases o with
      | none => rfl
      | some out =>
        rw [hsec] at h
        exact absurd h (by simp)

/-- Witness for C4 at the spec's hostile member name `"../../evil.txt"`:
the written file is `dest/evil.txt`, inside the destination. -/
theorem claim_C4_traversal_safety_witness :
    resolvePath ["d".toList] <+: resolvePath ["d".toList, "evil.txt".toList] :=
  ((claim_C4_traversal_safety ⟨[], []⟩ ["d".toList]
      ⟨"../../evil.txt".toList, false⟩ []).1
    ["d".toList, "evil.txt".toList]
    ⟨[["d".toList, "evil.txt".toList]], []⟩ (by decide)).1

/-! ## Replaying filesystem events

`replayOk` re-executes an event trace and checks that every write targets
a path that does not exist at that moment: a run whose trace replays
cleanly never overwrites an existing file. -/

theorem replayOk_append : ∀ (l1 l2 : List Ev) (fs : FS),
    replayOk fs (l1 ++ l2) =
      (replayOk fs l1 && replayOk (l1.foldl applyEv fs) l2)
  | [], l2, fs => by simp [replayOk]
  | Ev.mkDir p :: t, l2, fs => by
    simp only [List.cons_append, replayOk, List.foldl_cons, applyEv]
    exact replayOk_append t l2 (fs.addDir p)
  | Ev.write p :: t, l2, fs => by
    simp only [List.cons_append, replayOk, List.foldl_cons, applyEv,
      List.append_eq]
    rw [replayOk_append t l2 (fs.addFile p), Bool.and_assoc]
  | Ev.delete p :: t, l2, fs => by
    simp only [List.cons_append, replayOk, List.foldl_cons, applyEv]
    exact replayOk_append t l2 (fs.rmFile p)

theorem Has_addFile {fs : FS} {p q : FPath} (h : fs.Has q) :
    (fs.addFile p).Has q := by
  rcases h with h | h
  · exact Or.inl (List.mem_cons_of_mem _ h)
  · exact Or.inr h

theorem not_mem_files_of_not_Has {fs : FS} {p : FPath} (h : ¬ fs.Has p) :
    p ∉ fs.files :=
  fun hm => h (Or.inl hm)

/-- The two outcomes of `secure_extract_member`: either it writes one
fresh file, or it changes nothing. -/
theorem secure_extract_cases (fs : FS) (dest : FPath) (m : Member) :
    (∃ out, ¬ fs.Has out ∧
      secure_extract_member fs dest m = (some out, fs.addFile out)) ∨
    secure_extract_member fs dest m = (none, fs) := by
  rw [secure_extract_member]
  by_cases hd : m.isDir
  · right
    rw [if_pos hd]
  rw [if_neg hd]
  by_cases hf : pyPathName m.filename = []
  · right
    rw [if_pos hf]
  rw [if_neg hf]
  by_cases hpref : prefOf (resolvePath dest)
      (resolvePath (unique_path fs (dest ++ [safe_file_name (pyPathName m.filename)])))
  · left
    exact ⟨unique_path fs (dest ++ [safe_file_name (pyPathName m.filename)]),
      unique_path_free _ _, by rw [if_pos hpref]⟩
  · right
    rw [if_neg hpref]

/-- Invariants of the member-extraction loop: the final filesystem is the
replay of the trace, the trace replays cleanly (every write fresh), the
directories are untouched, the multiplicity of every pre-existing path
is unchanged, and no directory-creation event is emitted. -/
theorem extractAll_spec : ∀ (ms : List Member) (dest : FPath) (fs : FS),
    (extractAll dest fs ms).1 = (extractAll dest fs ms).2.foldl applyEv fs ∧
    replayOk fs (extractAll dest fs ms).2 = true ∧
    (extractAll dest fs ms).1.dirs = fs.dirs ∧
    (∀ q, fs.Has q →
      (extractAll dest fs ms).1.files.count q = fs.files.count q) ∧
    (∀ p, Ev.mkDir p ∉ (extractAll dest fs ms).2)
  | [], dest, fs => by simp [extractAll, replayOk]
  | m :: ms, dest, fs => by
    rcases secure_extract_cases fs dest m with ⟨out, hfree, hsec⟩ | hsec
    · have ih := extractAll_spec ms dest (fs.addFile out)
      rw [extractAll, hsec]
      simp only []
      refine ⟨?_, ?_, ?_, ?_, ?_⟩
      · rw [List.foldl_cons]
        exact ih.1
      · rw [replayOk]
        simp only [hfree, decide_eq_false (by exact hfree), Bool.not_false,
          Bool.true_and]
        exact ih.2.1
      · rw [ih.2.2.1]
        rfl
      · intro q hq
        have hne : out ≠ q := fun e => hfree (e ▸ hq)
        have h1 := ih.2.2.2.1 q (Has_addFile hq)
        rw [h1]
        exact List.count_cons_of_ne (fun e => hne e.symm) _
      · intro p hp
        rcases List.mem_cons.mp hp with h | h
        · exact Ev.noConfusion h
        · exact ih.2.2.2.2 p h
    · have ih := extractAll_spec ms dest fs
      rw [extractAll, hsec]
      exact ih

/-! ## Lemmas: attachment processing -/

theorem processAtt_not_saved {dest : FPath} {fs : FS} {a : Att}
    (h : a.saveOk = false) : processAtt dest fs a = (fs, [], []) := by
  simp [processAtt, h]

theorem processAtt_plain {dest : FPath} {fs : FS} {a : Att}
    (hs : a.saveOk = true) (hz : endsWithZip (cleanNameOf a) = false) :
    processAtt dest fs a = (fs.addFile (attPath dest fs a),
      [Ev.write (attPath dest fs a)], [attPath dest fs a]) := by
  simp [processAtt, hs, hz]

theorem processAtt_corruptZip {dest : FPath} {fs : FS} {a : Att}
    (hs : a.saveOk = true) (hz : endsWithZip (cleanNameOf a) = true)
    (hc : a.zip = ZipData.corrupt) :
    processAtt dest fs a = ((fs.addFile (attPath dest fs a)).rmFile (attPath dest fs a),
      [Ev.write (attPath dest fs a), Ev.delete (attPath dest fs a)], []) := by
  simp [processAtt, hs, hz, hc]

theorem processAtt_membersZip {dest : FPath} {fs : FS} {a : Att} {ms : List Member}
    (hs : a.saveOk = true) (hz : endsWithZip (cleanNameOf a) = true)
    (hm : a.zip = ZipData.members ms) :
    processAtt dest fs a =
      ((extractAll dest (fs.addFile (attPath dest fs a)) ms).1.rmFile (attPath dest fs a),
       Ev.write (attPath dest fs a) ::
         (extractAll dest (fs.addFile (attPath dest fs a)) ms).2 ++
         [Ev.delete (attPath dest fs a)], []) := by
  simp [processAtt, hs, hz, hm]

theorem attPath_free (dest : FPath) (fs : FS) (a : Att) :
    ¬ fs.Has (attPath dest fs a) :=
  unique_path_free fs (dest ++ [cleanNameOf a])

/-- Invariants of one attachment step: replayable trace, directories
untouched, no directory event. -/
theorem processAtt_spec (dest : FPath) (fs : FS) (a : Att) :
    (processAtt dest fs a).1 = (processAtt dest fs a).2.1.foldl applyEv fs ∧
    replayOk fs (processAtt dest fs a).2.1 = true ∧
    (processAtt dest fs a).1.dirs = fs.dirs ∧
    (∀ p, Ev.mkDir p ∉ (processAtt dest fs a).2.1) := by
  have hfree := attPath_free dest fs a
  cases hs : a.saveOk with
  | false =>
    rw [processAtt_not_saved hs]
    exact ⟨rfl, rfl, rfl, by simp⟩
  | true =>
    cases hz : endsWithZip (cleanNameOf a) with
    | false =>
      rw [processAtt_plain hs hz]
      refine ⟨rfl, ?_, rfl, by simp⟩
      simp [replayOk, hfree]
    | true =>
      cases hzip : a.zip with
      | corrupt =>
        rw [processAtt_corruptZip hs hz hzip]
        refine ⟨rfl, ?_, rfl, by simp⟩
        simp [replayOk, hfree]
      | members ms =>
        rw [processAtt_membersZip hs hz hzip]
        have hex := extractAll_spec ms dest (fs.addFile (attPath dest fs a))
        refine ⟨?_, ?_, ?_, ?_⟩
        · simp only [List.foldl_cons, List.foldl_append, List.foldl_nil, applyEv]
          rw [← hex.1]
        · rw [replayOk_append]
          have h1 : replayOk fs (Ev.write (attPath dest fs a) ::
              (extractAll dest (fs.addFile (attPath dest fs a)) ms).2) = true := by
            simp only [replayOk, decide_eq_false hfree, Bool.not_false,
              Bool.true_and]
            exact hex.2.1
          rw [h1]
          simp only [Bool.true_and, replayOk]
        · show ((extractAll dest (fs.addFile (attPath dest fs a)) ms).1.rmFile
            (attPath dest fs a)).dirs = fs.dirs
          show (extractAll dest (fs.addFile (attPath dest fs a)) ms).1.dirs = fs.dirs
          exact hex.2.2.1
        · intro p hp
          simp only [List.mem_cons, List.mem_append, List.mem_singleton] at hp
          rcases hp with (h | h) | h | h
          · exact Ev.noConfusion h
          · exact hex.2.2.2.2 p h
          · exact Ev.noConfusion h
          · exact absurd h (List.not_mem_nil _)

/-- After a saved `.zip` attachment is processed, its archive file is
gone from the filesystem. -/
theorem processAtt_zip_removed {dest : FPath} {fs : FS} {a : Att}
    (hs : a.saveOk = true) (hz : endsWithZip (cleanNameOf a) = true) :
    attPath dest fs a ∉ (processAtt dest fs a).1.files := by
  have hfree := attPath_free dest fs a
  have hnotmem : attPath dest fs a ∉ fs.files := not_mem_files_of_not_Has hfree
  cases hzip : a.zip with
  | corrupt =>
    rw [processAtt_corruptZip hs hz hzip]
    simp only [FS.rmFile, FS.addFile, List.erase_cons_head]
    exact hnotmem
  | members ms =>
    rw [processAtt_membersZip hs hz hzip]
    have hex := extractAll_spec ms dest (fs.addFile (attPath dest fs a))
    have hcount := hex.2.2.2.1 (attPath dest fs a)
      (Or.inl (List.mem_cons_self _ _))
    have h0 : List.count (attPath dest fs a)
        (fs.addFile (attPath dest fs a)).files = 1 := by
      show List.count (attPath dest fs a) (attPath dest fs a :: fs.files) = 1
      rw [List.count_cons_self, List.count_eq_zero.mpr hnotmem]
    rw [h0] at hcount
    show attPath dest fs a ∉
      (extractAll dest (fs.addFile (attPath dest fs a)) ms).1.files.erase
        (attPath dest fs a)
    rw [← List.count_eq_zero, List.count_erase_self, hcount]

theorem save_attachments_nil (dest : FPath) (fs : FS) :
    save_attachments dest fs [] = ⟨fs, [], []⟩ := rfl

theorem save_attachments_cons_fs (dest : FPath) (fs : FS) (a : Att)
    (rest : List Att) :
    (save_attachments dest fs (a :: rest)).fs =
      (save_attachments dest (processAtt dest fs a).1 rest).fs := rfl

theorem save_attachments_cons_evs (dest : FPath) (fs : FS) (a : Att)
    (rest : List Att) :
    (save_attachments dest fs (a :: rest)).evs =
      (processAtt dest fs a).2.1 ++
        (save_attachments dest (processAtt dest fs a).1 rest).evs := rfl

theorem save_attachments_cons_saved (dest : FPath) (fs : FS) (a : Att)
    (rest : List Att) :
    (save_attachments dest fs (a :: rest)).saved =
      (processAtt dest fs a).2.2 ++
        (save_attachments dest (processAtt dest fs a).1 rest).saved := rfl

theorem save_attachments_append_fs : ∀ (l1 l2 : List Att) (dest : FPath) (fs : FS),
    (save_attachments dest fs (l1 ++ l2)).fs =
      (save_attachments dest (save_attachments dest fs l1).fs l2).fs
  | [], _, _, _ => rfl
  | a :: t, l2, dest, fs => by
    rw [List.cons_append, save_attachments_cons_fs,
      save_attachments_append_fs t l2 dest _, save_attachments_cons_fs]

/-- Invariants of the attachment loop: replayable trace and no directory
event. -/
theorem save_attachments_spec : ∀ (atts : List Att) (dest : FPath) (fs : FS),
    (save_attachments dest fs atts).fs =
      (save_attachments dest fs atts).evs.foldl applyEv fs ∧
    replayOk fs (save_attachments dest fs atts).evs = true ∧
    (∀ p, Ev.mkDir p ∉ (save_attachments dest fs atts).evs)
  | [], dest, fs => by
    rw [save_attachments_nil]
    exact ⟨rfl, rfl, by simp⟩
  | a :: rest, dest, fs => by
    have hA := processAtt_spec dest fs a
    have ih := save_attachments_spec rest dest (processAtt dest fs a).1
    rw [save_attachments_cons_fs, save_attachments_cons_evs]
    refine ⟨?_, ?_, ?_⟩
    · rw [List.foldl_append, ← hA.1]
      exact ih.1
    · rw [replayOk_append, ← hA.1, hA.2.1]
      simp only [Bool.true_and]
      exact ih.2.1
    · intro p hp
      rcases List.mem_append.mp hp with h | h
      · exact hA.2.2.2 p h
      · exact ih.2.2 p h

/-- A saved but corrupt archive attachment leaves no trace: the archive
is saved and deleted, nothing is added to the returned list, and the
remaining attachments are processed exactly as if it had not been
there. -/
theorem save_attachments_corrupt_skip {dest : FPath} {fs : FS} {a : Att}
    {rest : List Att} (hs : a.saveOk = true)
    (hz : endsWithZip (cleanNameOf a) = true)
    (hc : a.zip = ZipData.corrupt) :
    (save_attachments dest fs (a :: rest)).fs =
      (save_attachments dest fs rest).fs ∧
    (save_attachments dest fs (a :: rest)).saved =
      (save_attachments dest fs rest).saved := by
  have hfs1 : (processAtt dest fs a).1 = fs := by
    rw [processAtt_corruptZip hs hz hc]
    show (fs.addFile (attPath dest fs a)).rmFile (attPath dest fs a) = fs
    cases fs with
    | mk f d => simp [FS.addFile, FS.rmFile, List.erase_cons_head]
  have hsaved : (processAtt dest fs a).2.2 = [] := by
    rw [processAtt_corruptZip hs hz hc]
  constructor
  · rw [save_attachments_cons_fs, hfs1]
  · rw [save_attachments_cons_saved, hsaved, hfs1, List.nil_append]

/--
**C5.** For every attachment whose sanitised saved name ends in `.zip`
(case-insensitively) and whose save succeeded, the archive file is gone
from the filesystem once that attachment's processing finishes — whether
extraction succeeded, found zero members, or the archive was corrupt —
and a corrupt archive leaves the filesystem and the saved-attachment
list of the remaining attachments exactly as if it had not been there.
-/
theorem claim_C5_archive_deletion (dest : FPath) (fs : FS) (pre rest : List Att)
    (a : Att) (hs : a.saveOk = true)
    (hz : endsWithZip (cleanNameOf a) = true) :
    attPath dest (save_attachments dest fs pre).fs a ∉
      (save_attachments dest fs (pre ++ [a])).fs.files ∧
    (a.zip = ZipData.corrupt →
      (save_attachments dest fs (a :: rest)).fs =
        (save_attachments dest fs rest).fs ∧
      (save_attachments dest fs (a :: rest)).saved =
        (save_attachments dest fs rest).saved) := by
  constructor
  · have he : (save_attachments dest fs (pre ++ [a])).fs =
        (processAtt dest (save_attachments dest fs pre).fs a).1 := by
      rw [save_attachments_append_fs, save_attachments_cons_fs,
        save_attachments_nil]
    rw [he]
    exact processAtt_zip_removed hs hz
  · intro hc
    exact save_attachments_corrupt_skip hs hz hc

/-- Witness for C5: a saved archive `data.zip` with one member is
extracted and the archive itself does not survive. -/
theorem claim_C5_archive_deletion_witness :
    attPath ["d".toList]
        (save_attachments ["d".toList] ⟨[], []⟩ []).fs
        ⟨"data.zip".toList, true, ZipData.members [⟨"a.txt".toList, false⟩]⟩ ∉
      (save_attachments ["d".toList] ⟨[], []⟩
        ([] ++ [⟨"data.zip".toList, true,
          ZipData.members [⟨"a.txt".toList, false⟩]⟩])).fs.files :=
  (claim_C5_archive_deletion ["d".toList] ⟨[], []⟩ [] []
    ⟨"data.zip".toList, true, ZipData.members [⟨"a.txt".toList, false⟩]⟩
    rfl (by decide)).1

/-! ## Lemmas: the per-item pipeline -/

theorem processItem_skip {base : FPath} {fs : FS} {seen : Finset Name}
    {m : MailItem} (h : acceptedB m = false ∨ m.entryId ∈ seen) :
    processItem base fs seen m = ⟨fs, seen, [], 0⟩ := by
  cases hm : m.isMail with
  | false => simp [processItem, hm]
  | true =>
    cases hr : m.readOk with
    | false => simp [processItem, hm, hr]
    | true =>
      cases hsr : SR_pattern_search m.subject with
      | false => simp [processItem, hm, hr, hsr]
      | true =>
        cases hre : RE_pattern_search m.subject with
        | true => simp [processItem, hm, hr, hsr, hre]
        | false =>
          have hmem : m.entryId ∈ seen := by
            rcases h with h | h
            · rw [acceptedB, accepts, hm, hr, hsr, hre] at h
              simp at h
            · exact h
          simp [processItem, hm, hr, hsr, hre, hmem]

theorem processItem_accept_msg {base : FPath} {fs : FS} {seen : Finset Name}
    {m : MailItem} (h1 : m.isMail = true) (h2 : m.readOk = true)
    (h3 : SR_pattern_search m.subject = true)
    (h4 : RE_pattern_search m.subject = false) (h5 : m.entryId ∉ seen)
    (hmsg : m.saveMsgOk = true) :
    processItem base fs seen m =
      ⟨(save_attachments (itemDest base m)
          ((fs.addDir (itemDest base m)).addFile (itemMsgPath base fs m))
          m.atts).fs,
       insert m.entryId seen,
       (Ev.mkDir (itemDest base m) :: [Ev.write (itemMsgPath base fs m)]) ++
         (save_attachments (itemDest base m)
          ((fs.addDir (itemDest base m)).addFile (itemMsgPath base fs m))
          m.atts).evs,
       1⟩ := by
  simp [processItem, h1, h2, h3, h4, h5, hmsg]

theorem processItem_accept_nomsg {base : FPath} {fs : FS} {seen : Finset Name}
    {m : MailItem} (h1 : m.isMail = true) (h2 : m.readOk = true)
    (h3 : SR_pattern_search m.subject = true)
    (h4 : RE_pattern_search m.subject = false) (h5 : m.entryId ∉ seen)
    (hmsg : m.saveMsgOk = false) :
    processItem base fs seen m =
      ⟨(save_attachments (itemDest base m) (fs.addDir (itemDest base m))
          m.atts).fs,
       insert m.entryId seen,
       (Ev.mkDir (itemDest base m) :: []) ++
         (save_attachments (itemDest base m) (fs.addDir (itemDest base m))
          m.atts).evs,
       1⟩ := by
  simp [processItem, h1, h2, h3, h4, h5, hmsg]

/-- Invariants of one item: replayable trace, and the only directory
ever created is the item's own sanitised-subject destination. -/
theorem processItem_spec (base : FPath) (fs : FS) (seen : Finset Name)
    (m : MailItem) :
    (processItem base fs seen m).fs =
      (processItem base fs seen m).evs.foldl applyEv fs ∧
    replayOk fs (processItem base fs seen m).evs = true ∧
    (∀ p, Ev.mkDir p ∈ (processItem base fs seen m).evs →
      acceptedB m = true ∧ p = itemDest base m) := by
  by_cases hskip : acceptedB m = false ∨ m.entryId ∈ seen
  · rw [processItem_skip hskip]
    exact ⟨rfl, rfl, by simp⟩
  · push_neg at hskip
    obtain ⟨ha, h5⟩ := hskip
    have haccB : acceptedB m = true := by
      rcases Bool.eq_false_or_eq_true (acceptedB m) with h | h
      · exact h
      · exact absurd h ha
    have ha' := haccB
    rw [acceptedB, Bool.and_eq_true, Bool.and_eq_true] at ha'
    obtain ⟨⟨h1, h2⟩, hac⟩ := ha'
    rw [accepts, Bool.and_eq_true] at hac
    obtain ⟨h3, h4'⟩ := hac
    have h4 : RE_pattern_search m.subject = false := by simpa using h4'
    cases hmsg : m.saveMsgOk with
    | true =>
      rw [processItem_accept_msg h1 h2 h3 h4 h5 hmsg]
      have hS := save_attachments_spec m.atts (itemDest base m)
        ((fs.addDir (itemDest base m)).addFile (itemMsgPath base fs m))
      have hfree : ¬ (fs.addDir (itemDest base m)).Has (itemMsgPath base fs m) :=
        unique_path_free _ _
      refine ⟨?_, ?_, ?_⟩
      · simp only [List.foldl_append, List.foldl_cons, List.foldl_nil, applyEv]
        exact hS.1
      · rw [replayOk_append]
        have hfirst : replayOk fs
            (Ev.mkDir (itemDest base m) ::
              [Ev.write (itemMsgPath base fs m)]) = true := by
          simp [replayOk, hfree]
        rw [hfirst]
        simp only [Bool.true_and, List.foldl_cons, List.foldl_nil, applyEv]
        exact hS.2.1
      · intro p hp
        rcases List.mem_append.mp hp with h | h
        · rcases List.mem_cons.mp h with h | h
          · injection h with h
            exact ⟨haccB, h⟩
          · exact Ev.noConfusion (List.mem_singleton.mp h)
        · exact absurd h (hS.2.2 p)
    | false =>
      rw [processItem_accept_nomsg h1 h2 h3 h4 h5 hmsg]
      have hS := save_attachments_spec m.atts (itemDest base m)
        (fs.addDir (itemDest base m))
      refine ⟨?_, ?_, ?_⟩
      · simp only [List.foldl_append, List.foldl_cons, List.foldl_nil, applyEv]
        exact hS.1
      · rw [replayOk_append]
        have hfirst : replayOk fs (Ev.mkDir (itemDest base m) :: []) = true := by
          simp [replayOk]
        rw [hfirst]
        simp only [Bool.true_and, List.foldl_cons, List.foldl_nil, applyEv]
        exact hS.2.1
      · intro p hp
        rcases List.mem_append.mp hp with h | h
        · rcases List.mem_cons.mp h with h | h
          · injection h with h
            exact ⟨haccB, h⟩
          · exact absurd h (List.not_mem_nil _)
        · exact absurd h (hS.2.2 p)

theorem processItem_seen_cases (base : FPath) (fs : FS) (seen : Finset Name)
    (m : MailItem) :
    (processItem base fs seen m).seen = seen ∨
    (processItem base fs seen m).seen = insert m.entryId seen := by
  by_cases hskip : acceptedB m = false ∨ m.entryId ∈ seen
  · rw [processItem_skip hskip]
    exact Or.inl rfl
  · push_neg at hskip
    obtain ⟨ha, h5⟩ := hskip
    have haccB : acceptedB m = true := by
      rcases Bool.eq_false_or_eq_true (acceptedB m) with h | h
      · exact h
      · exact absurd h ha
    have ha' := haccB
    rw [acceptedB, Bool.and_eq_true, Bool.and_eq_true] at ha'
    obtain ⟨⟨h1, h2⟩, hac⟩ := ha'
    rw [accepts, Bool.and_eq_true] at hac
    obtain ⟨h3, h4'⟩ := hac
    have h4 : RE_pattern_search m.subject = false := by simpa using h4'
    cases hmsg : m.saveMsgOk with
    | true => rw [processItem_accept_msg h1 h2 h3 h4 h5 hmsg]; exact Or.inr rfl
    | false => rw [processItem_accept_nomsg h1 h2 h3 h4 h5 hmsg]; exact Or.inr rfl

theorem processItem_seen_mono (base : FPath) (fs : FS) (seen : Finset Name)
    (m : MailItem) : seen ⊆ (processItem base fs seen m).seen := by
  rcases processItem_seen_cases base fs seen m with h | h
  · rw [h]
  · rw [h]
    exact Finset.subset_insert _ _

theorem processItem_accept_seen {base : FPath} {fs : FS} {seen : Finset Name}
    {m : MailItem} (hacc : acceptedB m = true) :
    m.entryId ∈ (processItem base fs seen m).seen := by
  by_cases h5 : m.entryId ∈ seen
  · exact processItem_seen_mono base fs seen m h5
  · rcases processItem_seen_cases base fs seen m with h | h
    · exfalso
      have ha' := hacc
      rw [acceptedB, Bool.and_eq_true, Bool.and_eq_true] at ha'
      obtain ⟨⟨h1, h2⟩, hac⟩ := ha'
      rw [accepts, Bool.and_eq_true] at hac
      obtain ⟨h3, h4'⟩ := hac
      have h4 : RE_pattern_search m.subject = false := by simpa using h4'
      cases hmsg : m.saveMsgOk with
      | true =>
        rw [processItem_accept_msg h1 h2 h3 h4 h5 hmsg] at h
        simp only [] at h
        exact h5 (h ▸ Finset.mem_insert_self m.entryId seen)
      | false =>
        rw [processItem_accept_nomsg h1 h2 h3 h4 h5 hmsg] at h
        simp only [] at h
        exact h5 (h ▸ Finset.mem_insert_self m.entryId seen)
    · rw [h]
      exact Finset.mem_insert_self _ _

theorem processRun_nil (base : FPath) (fs : FS) (seen : Finset Name) :
    processRun base fs seen [] = ⟨fs, seen, [], 0⟩ := rfl

theorem processRun_cons (base : FPath) (fs : FS) (seen : Finset Name)
    (m : MailItem) (rest : List MailItem) :
    processRun base fs seen (m :: rest) =
      ⟨(processRun base (processItem base fs seen m).fs
          (processItem base fs seen m).seen rest).fs,
       (processRun base (processItem base fs seen m).fs
          (processItem base fs seen m).seen rest).seen,
       (processItem base fs seen m).evs ++
         (processRun base (processItem base fs seen m).fs
            (processItem base fs seen m).seen rest).evs,
       (processItem base fs seen m).count +
         (processRun base (processItem base fs seen m).fs
            (processItem base fs seen m).seen rest).count⟩ := rfl

theorem processRun_seen_mono : ∀ (items : List MailItem) (base : FPath)
    (fs : FS) (seen : Finset Name),
    seen ⊆ (processRun base fs seen items).seen
  | [], _, _, _ => by rw [processRun_nil]
  | m :: rest, base, fs, seen => by
    rw [processRun_cons]
    exact (processItem_seen_mono base fs seen m).trans
      (processRun_seen_mono rest base _ _)

theorem processRun_accept_mem : ∀ (items : List MailItem) (base : FPath)
    (fs : FS) (seen : Finset Name) (m : MailItem), m ∈ items →
    acceptedB m = true → m.entryId ∈ (processRun base fs seen items).seen
  | [], _, _, _, _, hm, _ => absurd hm (List.not_mem_nil _)
  | m0 :: rest, base, fs, seen, m, hm, hacc => by
    rw [processRun_cons]
    rcases List.mem_cons.mp hm with rfl | hm
    · exact processRun_seen_mono rest base _ _
        (processItem_accept_seen hacc)
    · exact processRun_accept_mem rest base _ _ m hm hacc

/-- A run whose every accepted item is already in the processed set does
nothing at all. -/
theorem processRun_noop : ∀ (items : List MailItem) (base : FPath) (fs : FS)
    (seen : Finset Name),
    (∀ m ∈ items, acceptedB m = true → m.entryId ∈ seen) →
    processRun base fs seen items = ⟨fs, seen, [], 0⟩
  | [], _, _, _, _ => rfl
  | m :: rest, base, fs, seen, h => by
    have hskip : acceptedB m = false ∨ m.entryId ∈ seen := by
      rcases Bool.eq_false_or_eq_true (acceptedB m) with ha | ha
      · exact Or.inr (h m (List.mem_cons_self _ _) ha)
      · exact Or.inl ha
    rw [processRun_cons, processItem_skip hskip]
    rw [processRun_noop rest base fs seen
      (fun m' hm' => h m' (List.mem_cons_of_mem _ hm'))]
    simp

/-- Invariants of a whole run: replayable trace, and every directory
created is the sanitised-subject destination of an accepted item of the
run. -/
theorem processRun_spec : ∀ (items : List MailItem) (base : FPath) (fs : FS)
    (seen : Finset Name),
    (processRun base fs seen items).fs =
      (processRun base fs seen items).evs.foldl applyEv fs ∧
    replayOk fs (processRun base fs seen items).evs = true ∧
    (∀ p, Ev.mkDir p ∈ (processRun base fs seen items).evs →
      ∃ m, m ∈ items ∧ acceptedB m = true ∧ p = itemDest base m)
  | [], _, _, _ => ⟨rfl, rfl, by simp [processRun_nil]⟩
  | m :: rest, base, fs, seen => by
    have hI := processItem_spec base fs seen m
    have ih := processRun_spec rest base (processItem base fs seen m).fs
      (processItem base fs seen m).seen
    rw [processRun_cons]
    refine ⟨?_, ?_, ?_⟩
    · simp only [List.foldl_append]
      rw [← hI.1]
      exact ih.1
    · rw [replayOk_append, ← hI.1, hI.2.1]
      simp only [Bool.true_and]
      exact ih.2.1
    · intro p hp
      rcases List.mem_append.mp hp with h | h
      · obtain ⟨hacc, hdest⟩ := hI.2.2 p h
        exact ⟨m, List.mem_cons_self _ _, hacc, hdest⟩
      · obtain ⟨m', hm', hacc, hdest⟩ := ih.2.2 p h
        exact ⟨m', List.mem_cons_of_mem _ hm', hacc, hdest⟩

/--
**C2.** Running the pipeline twice over the same unchanged items
processes each accepted item exactly once: after the first run every
accepted item's identifier is in the in-memory and the persisted
processed set, and a second run that loads the persisted set back skips
every candidate before any directory creation or file write — it emits
no events, processes zero items, and leaves the filesystem and the set
unchanged.
-/
theorem claim_C2_idempotence (base : FPath) (fs0 : FS) (seen0 : Finset Name)
    (items : List MailItem) :
    (∀ m ∈ items, acceptedB m = true →
      m.entryId ∈ (processRun base fs0 seen0 items).seen ∧
      m.entryId ∈ save_log (processRun base fs0 seen0 items).seen) ∧
    processRun base (processRun base fs0 seen0 items).fs
        (load_log (save_log (processRun base fs0 seen0 items).seen)) items =
      ⟨(processRun base fs0 seen0 items).fs,
       (processRun base fs0 seen0 items).seen, [], 0⟩ := by
  constructor
  · intro m hm hacc
    have h1 := processRun_accept_mem items base fs0 seen0 m hm hacc
    refine ⟨h1, ?_⟩
    rw [save_log]
    exact (Finset.mem_sort _).mpr h1
  · rw [log_roundtrip]
    exact processRun_noop items base _ _
      (fun m hm hacc => processRun_accept_mem items base fs0 seen0 m hm hacc)

/-- Witness for C2: one accepted item; its identifier lands in the
processed set and the second run over the same item is a no-op. -/
theorem claim_C2_idempotence_witness :
    "id1".toList ∈
      (processRun ["b".toList] ⟨[], []⟩ ∅
        [⟨true, true, "SR12345678".toList, "id1".toList, false, []⟩]).seen ∧
    processRun ["b".toList]
        (processRun ["b".toList] ⟨[], []⟩ ∅
          [⟨true, true, "SR12345678".toList, "id1".toList, false, []⟩]).fs
        (load_log (save_log (processRun ["b".toList] ⟨[], []⟩ ∅
          [⟨true, true, "SR12345678".toList, "id1".toList, false, []⟩]).seen))
        [⟨true, true, "SR12345678".toList, "id1".toList, false, []⟩] =
      ⟨(processRun ["b".toList] ⟨[], []⟩ ∅
          [⟨true, true, "SR12345678".toList, "id1".toList, false, []⟩]).fs,
       (processRun ["b".toList] ⟨[], []⟩ ∅
          [⟨true, true, "SR12345678".toList, "id1".toList, false, []⟩]).seen,
       [], 0⟩ :=
  ⟨((claim_C2_idempotence ["b".toList] ⟨[], []⟩ ∅
      [⟨true, true, "SR12345678".toList, "id1".toList, false, []⟩]).1
      ⟨true, true, "SR12345678".toList, "id1".toList, false, []⟩
      (by decide) (by decide)).1,
   (claim_C2_idempotence ["b".toList] ⟨[], []⟩ ∅
      [⟨true, true, "SR12345678".toList, "id1".toList, false, []⟩]).2⟩

/--
**C8.** Every directory the run creates is named exactly
`base / safe_folder_name(subject)` of an accepted item — never a
collision-suffixed variant — and the run's event trace replays cleanly:
every file written (message, attachment or extracted member) goes to a
path that did not exist at the moment of the write, so no existing file
is ever overwritten.
-/
theorem claim_C8_collision_policy (base : FPath) (fs0 : FS)
    (seen0 : Finset Name) (items : List MailItem) :
    (∀ p, Ev.mkDir p ∈ (processRun base fs0 seen0 items).evs →
      ∃ m, m ∈ items ∧ acceptedB m = true ∧
        p = base ++ [safe_folder_name m.subject]) ∧
    replayOk fs0 (processRun base fs0 seen0 items).evs = true := by
  refine ⟨?_, (processRun_spec items base fs0 seen0).2.1⟩
  intro p hp
  obtain ⟨m, hm, hacc, hdest⟩ := (processRun_spec items base fs0 seen0).2.2 p hp
  exact ⟨m, hm, hacc, hdest⟩

/-- Witness for C8: the single accepted item's directory is named by its
sanitised subject, and the run's trace replays with no overwrite. -/
theorem claim_C8_collision_policy_witness :
    (∃ m, m ∈ [(⟨true, true, "SR12345678".toList, "id1".toList, true,
        [⟨"a.txt".toList, true, ZipData.members []⟩]⟩ : MailItem)] ∧
      acceptedB m = true ∧
      ["b".toList, "SR12345678".toList] =
        ["b".toList] ++ [safe_folder_name "SR12345678".toList]) ∧
    replayOk ⟨[], []⟩
      (processRun ["b".toList] ⟨[], []⟩ ∅
        [⟨true, true, "SR12345678".toList, "id1".toList, true,
          [⟨"a.txt".toList, true, ZipData.members []⟩]⟩]).evs = true :=
  ⟨by
    obtain ⟨m, hm, hacc, hdest⟩ :=
      (claim_C8_collision_policy ["b".toList] ⟨[], []⟩ ∅
        [⟨true, true, "SR12345678".toList, "id1".toList, true,
          [⟨"a.txt".toList, true, ZipData.members []⟩]⟩]).1
        ["b".toList, "SR12345678".toList] (by decide)
    rcases List.mem_singleton.mp hm with rfl
    exact ⟨_, List.mem_singleton_self _, hacc, hdest⟩,
   (claim_C8_collision_policy ["b".toList] ⟨[], []⟩ ∅
      [⟨true, true, "SR12345678".toList, "id1".toList, true,
        [⟨"a.txt".toList, true, ZipData.members []⟩]⟩]).2⟩

/--
**C9.** A candidate whose `Subject`/`EntryID` read fails is skipped
entirely for the run: no directory or file event, the processed set is
unchanged, and in particular its identifier is not added — so the item
is reconsidered as a candidate on the next run.
-/
theorem claim_C9_read_failure (base : FPath) (fs : FS) (seen : Finset Name)
    (m : MailItem) (h1 : m.isMail = true) (h2 : m.readOk = false) :
    processItem base fs seen m = ⟨fs, seen, [], 0⟩ ∧
    (m.entryId ∉ seen → m.entryId ∉ (processItem base fs seen m).seen) := by
  have he : processItem base fs seen m = ⟨fs, seen, [], 0⟩ := by
    simp [processItem, h1, h2]
  exact ⟨he, fun hn => by rw [he]; exact hn⟩

/-- Witness for C9: an unreadable candidate changes nothing. -/
theorem claim_C9_read_failure_witness :
    processItem ["b".toList] ⟨[], []⟩ ∅
        ⟨true, false, "SR12345678".toList, "id1".toList, true, []⟩ =
      ⟨⟨[], []⟩, ∅, [], 0⟩ ∧
    "id1".toList ∉
      (processItem ["b".toList] ⟨[], []⟩ ∅
        ⟨true, false, "SR12345678".toList, "id1".toList, true, []⟩).seen :=
  ⟨(claim_C9_read_failure ["b".toList] ⟨[], []⟩ ∅
      ⟨true, false, "SR12345678".toList, "id1".toList, true, []⟩ rfl rfl).1,
   (claim_C9_read_failure ["b".toList] ⟨[], []⟩ ∅
      ⟨true, false, "SR12345678".toList, "id1".toList, true, []⟩ rfl rfl).2
    (by decide)⟩
